import Mathlib

/-!
# Verification of the onnx-coreml graph-transformer passes

A shallow embedding of `onnx_coreml/_transformers.py`: the chain-matching
engine (`NodesFuser.__call__`), the concrete fusion rules (`ConvAddFuser`,
`BNBroadcastedMulFuser`, `BNBroadcastedAddFuser`, `DropoutRemover`,
`PixelShuffleFuser`), and the auxiliary passes (`ReshapeInitTensorFuser`,
`DanglingOutputsRemover`, `OutputRenamer`).

Python nodes are objects holding object references to their parents and
children; we model node identity by `name` (unique within a graph, per the
spec's data-model invariant) and adjacency by lists of names resolved
through the graph's node list.  In-place mutation becomes explicit state
passing over the node list.  Fallible Python operations (KeyError on a
missing dict key, IndexError on a short list, ValueError from
`list.remove` or `ndarray.reshape`, a failing `assert`) are modelled by
`Option`, `none` standing for a raised exception.

`numpy` tensors are modelled with `Int` entries; the elementwise `+` and
`np.multiply` are modelled for operands of equal shape (the only case the
fusion rules exercise); other shape combinations are mapped to `none`.
-/

/-- One attribute value of a node: the transformers only consult integer
scalars (`broadcast`, `axis`), integer lists (`shape`, `perm`) and we add
strings for completeness (spec section 3: integer, float, integer-list,
float-list, or string; the float kinds are never consulted by this code). -/
inductive AttrValue where
  | int : Int → AttrValue
  | list : List Int → AttrValue
  | str : String → AttrValue
deriving DecidableEq, Repr

/-- A constant tensor (numpy array): a shape and row-major data. -/
structure Tensor where
  shape : List Nat
  data : List Int
deriving DecidableEq, Repr

/-- Product of the dimensions of a shape. -/
def shapeProd (l : List Nat) : Nat := l.foldr (· * ·) 1

/-- `np.zeros((n,), ...)`. -/
def Tensor.zeros (n : Nat) : Tensor := ⟨[n], List.replicate n 0⟩

/-- Elementwise `+` of numpy arrays, modelled for operands of equal shape
(the only case the fusion rules exercise); other shape combinations are
not modelled and yield `none`. -/
def Tensor.add (a b : Tensor) : Option Tensor :=
  if a.shape = b.shape then some ⟨a.shape, List.zipWith (· + ·) a.data b.data⟩ else none

/-- Elementwise `np.multiply`, modelled for operands of equal shape. -/
def Tensor.mul (a b : Tensor) : Option Tensor :=
  if a.shape = b.shape then some ⟨a.shape, List.zipWith (· * ·) a.data b.data⟩ else none

/-- `ndarray.reshape(dims)`: the data is never changed; the target shape
must account for every element.  One `-1` entry is inferred from the data
size as in numpy; a size mismatch raises (`none`). -/
def Tensor.reshape (t : Tensor) (dims : List Int) : Option Tensor :=
  let n := t.data.length
  if dims.all (fun d => decide (0 ≤ d)) then
    let s := dims.map Int.toNat
    if shapeProd s = n then some ⟨s, t.data⟩ else none
  else if dims.count (-1) = 1 && dims.all (fun d => d == -1 || decide (0 ≤ d)) then
    let p := shapeProd ((dims.filter (fun d => d != -1)).map Int.toNat)
    if p ≠ 0 ∧ p ∣ n then
      some ⟨dims.map (fun d => if d = -1 then n / p else d.toNat), t.data⟩
    else none
  else none

/-- Modelled from the spec (section 3), `_graph.py` being outside `src/`:
a node has a unique `name`, an operator kind `op_type`, an attribute
mapping `attrs`, ordered `inputs`/`outputs` edge-name lists, a mapping
`input_tensors` from edge name to constant tensor for literal inputs, and
derived `parents`/`children` back-references, here stored as node names. -/
structure Node where
  name : String
  op_type : String
  attrs : List (String × AttrValue)
  inputs : List String
  outputs : List String
  input_tensors : List (String × Tensor)
  parents : List String
  children : List String
deriving DecidableEq, Repr

/-- Modelled from the spec (section 3): a graph is an ordered sequence of
nodes plus declared inputs and outputs (edge name with a shape). -/
structure Graph where
  nodes : List Node
  inputs : List (String × List Nat)
  outputs : List (String × List Nat)
deriving DecidableEq, Repr

/-- Resolve a node name to its (first) node in the graph. -/
def Graph.findNode (g : Graph) (nm : String) : Option Node :=
  g.nodes.find? (fun m => m.name == nm)

/-- `node.attrs[k]` as a total lookup (`none` = key absent). -/
def Node.attr (n : Node) (k : String) : Option AttrValue :=
  (n.attrs.find? (fun kv => kv.1 == k)).map (·.2)

/-- `node.attrs[k]` where the Python code goes on to use the value as a
list (`len(...)`, indexing, comparing to a list): `none` models both the
KeyError of a missing key and the TypeError of a non-list value. -/
def Node.attrIntList (n : Node) (k : String) : Option (List Int) :=
  match n.attr k with
  | some (AttrValue.list l) => some l
  | _ => none

/-- `node.input_tensors[k]` (`none` = KeyError). -/
def Node.tensor (n : Node) (k : String) : Option Tensor :=
  (n.input_tensors.find? (fun kv => kv.1 == k)).map (·.2)

/-- Python dict assignment `d[k] = v` on an association list. -/
def setTensor (ts : List (String × Tensor)) (k : String) (v : Tensor) :
    List (String × Tensor) :=
  if ts.any (fun kv => kv.1 == k) then
    ts.map (fun kv => if kv.1 == k then (k, v) else kv)
  else ts ++ [(k, v)]

/-- Python dict assignment `attrs[k] = v`. -/
def setAttr (as_ : List (String × AttrValue)) (k : String) (v : AttrValue) :
    List (String × AttrValue) :=
  if as_.any (fun kv => kv.1 == k) then
    as_.map (fun kv => if kv.1 == k then (k, v) else kv)
  else as_ ++ [(k, v)]

/-! ## The chain-matching engine: `NodesFuser.__call__`, lines 21-44

Per node `node` considered as the tail of a candidate window the code
walks up through single-parent links at most `num_nodes - 1` times
(inserting each visited node at the front of `nodes_window`), then, if
anything was collected, inserts the only parent of the earliest collected
node whenever that parent has exactly one child, and finally accepts the
window iff its length is exactly `num_nodes`. -/

/-- `n.get_only_parent()` resolved in the graph: the node named by `n`'s
single parent entry.  `none` when `n` does not have exactly one parent
(the Python accessor asserts) or the name does not resolve (impossible
for a graph whose back-references are consistent). -/
def get_only_parent (g : Graph) (n : Node) : Option Node :=
  match n.parents with
  | [p] => g.findNode p
  | _ => none

/-- The upward walk of `NodesFuser.__call__` (lines 24-34): `fuel` is the
remaining iteration count of `for _ in range(self.num_nodes - 1)`, `acc`
is `nodes_window` (new nodes are inserted at the front). -/
def windowLoop (g : Graph) : Nat → Node → List Node → List Node
  | 0, _, acc => acc
  | fuel + 1, n, acc =>
    match get_only_parent g n with
    | none => acc
    | some p =>
      if p.children.length ≠ 1 then acc
      else windowLoop g fuel p (n :: acc)

/-- Lines 22-40 of `NodesFuser.__call__`: the walk followed by the
extension step (`if len(nodes_window) > 0: ... insert parent`). -/
def buildWindow (g : Graph) (k : Nat) (node : Node) : List Node :=
  let w := windowLoop g (k - 1) node []
  match w with
  | [] => w
  | first :: _ =>
    match get_only_parent g first with
    | some p => if p.children.length = 1 then p :: w else w
    | none => w

/-- Lines 41-42: the window survives to the `is_eligible` call iff its
final length is exactly `num_nodes`. -/
def acceptedWindow (g : Graph) (k : Nat) (node : Node) : Option (List Node) :=
  let w := buildWindow g k node
  if w.length = k then some w else none

/-! ## Fusion-rule eligibility checks

Each `is_eligible` takes the accepted window (`nodes_window`, a list of
length `num_nodes`) and returns `Option Bool`: `some b` models returning
`b`, `none` models a raised exception.  The `graph` argument of the
Python methods is never consulted and is omitted. -/

namespace ConvAddFuser

/-- `ConvAddFuser.is_eligible` (lines 88-107): parent must be `Conv`,
child must be `Add` carrying attributes `broadcast == 1` and `axis == 1`. -/
def is_eligible (nodes : List Node) : Option Bool :=
  match nodes with
  | parent :: child :: _ =>
    if parent.op_type ≠ "Conv" then some false
    else if child.op_type ≠ "Add" then some false
    else if child.attr "broadcast" = none then some false
    else if child.attr "axis" = none then some false
    else if child.attr "broadcast" ≠ some (AttrValue.int 1) then some false
    else if child.attr "axis" ≠ some (AttrValue.int 1) then some false
    else some true
  | _ => none

/-- `ConvAddFuser.merge` (lines 109-127).  Mirrors the Python statement
order: the weight lookup deciding `output_channels`, the existing/fresh
bias branch, the addition of the Add node's constant operand, the final
rewiring.  `list.remove` raises when the element is absent, hence the
membership guards. -/
def merge (nodes : List Node) : Option Node :=
  match nodes with
  | parent :: child :: _ => do
    let wname ← parent.inputs.get? 1
    let wt ← parent.tensor wname
    let oc ← wt.shape.head?
    let (bias_input_name, newInputs, bias) ←
      if parent.inputs.length > 2 then do
        let bn ← parent.inputs.get? 2
        let b ← parent.tensor bn
        pure (bn, parent.inputs, b)
      else
        pure (parent.name ++ "_bias", parent.inputs ++ [parent.name ++ "_bias"],
              Tensor.zeros oc)
    let addName ← child.inputs.get? 1
    let addend ← child.tensor addName
    let bias2 ← Tensor.add bias addend
    if child.name ∈ parent.children ∧ parent.name ∈ child.parents then
      some { parent with
              inputs := newInputs,
              input_tensors := setTensor parent.input_tensors bias_input_name bias2,
              outputs := child.outputs,
              children := parent.children.erase child.name }
    else none
  | _ => none

end ConvAddFuser

namespace BNBroadcastedMulFuser

/-- `BNBroadcastedMulFuser.is_eligible` (lines 137-153): parent is
`BatchNormalization`, child is `Mul` with `broadcast == 1`, `axis == 1`,
and the child's second input must be a stored literal tensor.  Note the
unguarded `child.inputs[1]` access (line 151): a `Mul` child with fewer
than two inputs raises IndexError (`none`). -/
def is_eligible (nodes : List Node) : Option Bool :=
  match nodes with
  | parent :: child :: _ =>
    if parent.op_type ≠ "BatchNormalization" then some false
    else if child.op_type ≠ "Mul" then some false
    else if child.attr "broadcast" = none then some false
    else if child.attr "broadcast" ≠ some (AttrValue.int 1) then some false
    else if child.attr "axis" = none then some false
    else if child.attr "axis" ≠ some (AttrValue.int 1) then some false
    else
      match child.inputs.get? 1 with
      | none => none
      | some snd => if child.tensor snd = none then some false else some true
  | _ => none

/-- `BNBroadcastedMulFuser.merge` (lines 155-165): the BatchNorm's scale
(input 1) and bias (input 2) tensors are each multiplied elementwise by
the Mul's constant operand; the BatchNorm adopts the Mul's outputs. -/
def merge (nodes : List Node) : Option Node :=
  match nodes with
  | parent :: child :: _ => do
    let sn ← parent.inputs.get? 1
    let weight ← parent.tensor sn
    let bn ← parent.inputs.get? 2
    let bias ← parent.tensor bn
    let wn ← child.inputs.get? 1
    let w ← child.tensor wn
    let weight2 ← Tensor.mul weight w
    let bias2 ← Tensor.mul bias w
    if child.name ∈ parent.children ∧ parent.name ∈ child.parents then
      some { parent with
              input_tensors := setTensor (setTensor parent.input_tensors sn weight2) bn bias2,
              outputs := child.outputs,
              children := parent.children.erase child.name }
    else none
  | _ => none

end BNBroadcastedMulFuser

namespace BNBroadcastedAddFuser

/-- `BNBroadcastedAddFuser.is_eligible` (lines 175-193): parent is
`BatchNormalization`, child is `Add` with `broadcast == 1`, `axis == 1`,
exactly two inputs, the second being a stored literal tensor. -/
def is_eligible (nodes : List Node) : Option Bool :=
  match nodes with
  | parent :: child :: _ =>
    if parent.op_type ≠ "BatchNormalization" then some false
    else if child.op_type ≠ "Add" then some false
    else if child.attr "broadcast" = none then some false
    else if child.attr "broadcast" ≠ some (AttrValue.int 1) then some false
    else if child.attr "axis" = none then some false
    else if child.attr "axis" ≠ some (AttrValue.int 1) then some false
    else if child.inputs.length ≠ 2 then some false
    else
      match child.inputs.get? 1 with
      | none => none
      | some snd => if child.tensor snd = none then some false else some true
  | _ => none

end BNBroadcastedAddFuser

namespace DropoutRemover

/-- `DropoutRemover.is_eligible` (lines 213-215). -/
def is_eligible (nodes : List Node) : Option Bool :=
  match nodes with
  | _ :: child :: _ => some (child.op_type == "Dropout")
  | _ => none

end DropoutRemover

namespace PixelShuffleFuser

/-- `PixelShuffleFuser.is_eligible` (lines 321-357).  The three op-type
checks come first; then `nodes[0].attrs['shape']` is read with an
unguarded subscript (KeyError when absent, hence `none`), the
six-dimensional `[1, C, s, s, H, W]` pattern is checked, the permutation
is compared against `[0, 1, 4, 2, 5, 3]` through `attrs.get('perm', [])`
(missing key defaults to `[]`, never raising), and finally
`nodes[2].attrs['shape']` (again unguarded) must be a 4-list whose
channel entry matches and whose spatial entries are `H*s` and `W*s`.
The code never constrains the leading entry of the final shape. -/
def is_eligible (nodes : List Node) : Option Bool :=
  match nodes with
  | n0 :: n1 :: n2 :: _ =>
    if n0.op_type ≠ "Reshape" then some false
    else if n1.op_type ≠ "Transpose" then some false
    else if n2.op_type ≠ "Reshape" then some false
    else
      match n0.attrIntList "shape" with
      | none => none
      | some shape =>
        match shape with
        | [d0, input_channels, scale_factor, d3, input_height, input_width] =>
          if d0 ≠ 1 ∨ scale_factor ≠ d3 then some false
          else if (n1.attr "perm").getD (AttrValue.list []) ≠
              AttrValue.list [0, 1, 4, 2, 5, 3] then some false
          else
            match n2.attrIntList "shape" with
            | none => none
            | some shape2 =>
              match shape2 with
              | [_, output_channels, output_height, output_width] =>
                if input_channels ≠ output_channels then some false
                else if input_height * scale_factor ≠ output_height then some false
                else if input_width * scale_factor ≠ output_width then some false
                else some true
              | _ => some false
        | _ => some false
  | _ => none

end PixelShuffleFuser

/-! ## `PixelShuffleFuser.merge` and the unique-edge-name generator -/

/-- Every edge name occurring in the graph. -/
def Graph.edgeNames (g : Graph) : List String :=
  g.nodes.flatMap (fun n => n.inputs ++ n.outputs)
    ++ g.inputs.map (·.1) ++ g.outputs.map (·.1)

/-- Helper search for a collision-free name: keeps extending the base
name while it collides; the fuel (one more than the number of used names)
guarantees termination. -/
def uniqueNameAux (used : List String) : Nat → String → String
  | 0, base => base
  | fuel + 1, base =>
    if base ∈ used then uniqueNameAux used fuel (base ++ "_") else base

/-- Modelled from the spec (section 4.1), `_graph.py` being outside
`src/`: `get_unique_edge_name(base)` returns a collision-free edge
identifier scoped to the whole graph. -/
def Graph.get_unique_edge_name (g : Graph) (base : String) : String :=
  uniqueNameAux g.edgeNames (g.edgeNames.length + 1) base

/-- `PixelShuffleFuser.get_unique_edge_name` (lines 359-361): bumps the
fuser's `num_added` counter and asks the graph for a collision-free name
for `name + '_' + str(num_added)`.  Returns the name and the new counter. -/
def PixelShuffleFuser.get_unique_edge_name (g : Graph) (num_added : Nat)
    (name : String) : String × Nat :=
  (g.get_unique_edge_name (name ++ "_" ++ toString (num_added + 1)), num_added + 1)

/-- `PixelShuffleFuser.merge` (lines 363-421), with the fuser's
`num_added` counter threaded explicitly.  `Node.add_child` is modelled
from the spec (section 3: adjacency is a bidirectionally consistent
back-reference), appending the child name and the parent back-reference;
here all three additions act on freshly cleared lists so the
membership-before-append detail is invisible.  Returns the 5-node
replacement sequence and the new counter. -/
def PixelShuffleFuser.merge (g : Graph) (num_added : Nat) (nodes : List Node) :
    Option (List Node × Nat) :=
  match nodes with
  | [reshape_1, transpose_1, final_reshape] =>
    match reshape_1.attrIntList "shape" with
    | none => none
    | some shape =>
      match shape with
      | _ :: channels :: scale :: _ :: height :: width :: _ =>
        let reshape_1 := { reshape_1 with
          attrs := setAttr reshape_1.attrs "shape"
            (AttrValue.list [channels, scale * scale, height, width]) }
        let (t1out, num_added) :=
          PixelShuffleFuser.get_unique_edge_name g num_added "pixel_shuffle_transpose"
        let transpose_1 := { transpose_1 with
          children := [],
          attrs := setAttr transpose_1.attrs "perm" (AttrValue.list [0, 2, 1, 3]),
          outputs := [t1out] }
        let (r2out, num_added) :=
          PixelShuffleFuser.get_unique_edge_name g num_added "pixel_shuffle_reshape"
        let reshape_2 : Node :=
          { name := "pixel_shuffle_reshape", op_type := "Reshape",
            attrs := [("shape", AttrValue.list [channels * height, scale, scale, width])],
            inputs := transpose_1.outputs, outputs := [r2out],
            input_tensors := [], parents := [], children := [] }
        let transpose_1 := { transpose_1 with children := [reshape_2.name] }
        let reshape_2 := { reshape_2 with parents := [transpose_1.name] }
        let (t2out, num_added) :=
          PixelShuffleFuser.get_unique_edge_name g num_added "pixel_shuffle_transpose"
        let transpose_2 : Node :=
          { name := "pixel_shuffle_transpose", op_type := "Transpose",
            attrs := [("perm", AttrValue.list [0, 1, 3, 2])],
            inputs := reshape_2.outputs, outputs := [t2out],
            input_tensors := [], parents := [], children := [] }
        let reshape_2 := { reshape_2 with children := [transpose_2.name] }
        let transpose_2 := { transpose_2 with parents := [reshape_2.name] }
        let final_reshape := { final_reshape with
          inputs := transpose_2.outputs, parents := [transpose_2.name] }
        let transpose_2 := { transpose_2 with children := [final_reshape.name] }
        some ([reshape_1, transpose_1, reshape_2, transpose_2, final_reshape], num_added)
      | _ => none
  | _ => none

/-! ## `ReshapeInitTensorFuser.__call__` (lines 231-256)

The pass walks the node list once; a `Reshape` node whose single stored
literal tensor is exactly its first declared input is folded: the
reshaped tensor is attached to every child under the Reshape's output
edge name, the child's parent back-reference is dropped, and the node is
removed from the list.  `assert len(node.parents) == 0` failing, a
missing `shape` attribute, an empty `inputs`/`outputs` list, or a
size-mismatched reshape are exceptions (`none`). -/

/-- Replace (by name) a node of the state with an updated value. -/
def updateNodeByName (σ : List Node) (nm : String) (f : Node → Node) : List Node :=
  σ.map (fun m => if m.name = nm then f m else m)

/-- The body of the `for node in nodes` loop of
`ReshapeInitTensorFuser.__call__` for the node currently named `nm`:
either leaves the state untouched (`continue`), or folds the node,
returning the updated node list and the grown `removed` list. -/
def reshapeFoldStep (σ : List Node) (removed : List String) (nm : String) :
    Option (List Node × List String) :=
  match σ.find? (fun m => m.name == nm) with
  | none => some (σ, removed)
  | some node =>
    if node.op_type ≠ "Reshape" then some (σ, removed)
    else
      match node.input_tensors with
      | [(tensor_name, tensor)] =>
        match node.inputs with
        | [] => none
        | i0 :: _ =>
          if tensor_name ≠ i0 then some (σ, removed)
          else if node.parents ≠ [] then none
          else
            match node.outputs with
            | [] => none
            | output_name :: _ =>
              match node.attrIntList "shape" with
              | none => none
              | some shape =>
                match tensor.reshape shape with
                | none => none
                | some reshaped =>
                  let σ2 := node.children.foldl
                    (fun s c => updateNodeByName s c (fun child =>
                      { child with
                        parents := child.parents.erase node.name,
                        input_tensors := setTensor child.input_tensors output_name reshaped }))
                    σ
                  some (σ2, removed ++ [nm])
      | _ => some (σ, removed)

/-- The whole `for node in nodes` loop, iterating in the original node
order (node identity is looked up by name at each step, mirroring the
mutation of shared objects). -/
def reshapeFoldLoop : List String → List Node → List String →
    Option (List Node × List String)
  | [], σ, removed => some (σ, removed)
  | nm :: rest, σ, removed =>
    match reshapeFoldStep σ removed nm with
    | none => none
    | some (σ2, removed2) => reshapeFoldLoop rest σ2 removed2

/-- Modelled from the spec (section 4.1), `_graph.py` being outside
`src/`: constructing a `Graph` from a node list rebuilds the derived
parent/child adjacency from scratch by scanning every node's input and
output edge names (node B is a child of node A iff some name in A's
outputs appears in B's inputs). -/
def rebuildAdjacency (nodes : List Node) : List Node :=
  nodes.map (fun n =>
    { n with
      parents := (nodes.filter (fun m => m.outputs.any (fun o => o ∈ n.inputs))).map (·.name),
      children := (nodes.filter (fun m => n.outputs.any (fun o => o ∈ m.inputs))).map (·.name) })

/-- Modelled from the spec (section 4.1): `Graph(nodes, inputs, outputs)`. -/
def Graph.fromNodes (nodes : List Node) (ins outs : List (String × List Nat)) : Graph :=
  ⟨rebuildAdjacency nodes, ins, outs⟩

/-- `ReshapeInitTensorFuser.__call__` (lines 231-256). -/
def ReshapeInitTensorFuser.call (g : Graph) : Option Graph :=
  match reshapeFoldLoop (g.nodes.map (·.name)) g.nodes [] with
  | none => none
  | some (σ, removed) =>
    some (Graph.fromNodes (σ.filter (fun n => n.name ∉ removed)) g.inputs g.outputs)

/-! ## `DanglingOutputsRemover.__call__` (lines 264-281)

For each node, an output is kept iff it is a declared graph output or
appears among the inputs of one of the node's children; the pass mutates
the nodes in place and returns the same graph (no reconstruction). -/

/-- The union of the inputs of the node's children, resolved in `g`. -/
def childrenInputs (g : Graph) (n : Node) : List String :=
  n.children.flatMap (fun c =>
    match g.findNode c with
    | some m => m.inputs
    | none => [])

/-- `DanglingOutputsRemover.__call__`. -/
def DanglingOutputsRemover.call (g : Graph) : Graph :=
  let graph_output_names := g.outputs.map (·.1)
  { g with nodes := g.nodes.map (fun n =>
      { n with outputs := n.outputs.filter (fun o =>
          o ∈ graph_output_names ∨ o ∈ childrenInputs g n) }) }

/-! ## `OutputRenamer.__call__` (lines 291-309)

The pass copies the constructor's mapping and walks the nodes in order;
for each output position whose current name is a key of the (shrinking)
mapping it overwrites the output with the mapped name, rewrites every
matching input entry of every child, deletes the key, and stops scanning
this node's outputs once the mapping is exhausted (the remaining nodes
are still visited, with nothing left to match).  The pass mutates nodes
in place and returns the same graph object; we additionally expose the
final state of the consumed mapping copy. -/

/-- Rewrite, in every node named in `childNames`, every input entry equal
to `o` into `v` (the inner `for child in node.children` loop). -/
def renameChildren (σ : List Node) (childNames : List String) (o v : String) :
    List Node :=
  childNames.foldl
    (fun s c => updateNodeByName s c (fun child =>
      { child with inputs := child.inputs.map (fun x => if x = o then v else x) }))
    σ

/-- The `for i in range(len(node.outputs))` loop for the node named `nm`,
starting at position `i` with `fuel` positions left to visit.  The node
is re-read from the state at every position (its outputs are mutated as
the loop runs). -/
def renameOutputsLoop (nm : String) :
    Nat → Nat → List Node → List (String × String) → List Node × List (String × String)
  | _, 0, σ, m => (σ, m)
  | i, fuel + 1, σ, m =>
    match σ.find? (fun x => x.name == nm) with
    | none => (σ, m)
    | some node =>
      match node.outputs.get? i with
      | none => (σ, m)
      | some output =>
        match m.find? (fun kv => kv.1 == output) with
        | none => renameOutputsLoop nm (i + 1) fuel σ m
        | some kv =>
          let σ := updateNodeByName σ nm
            (fun x => { x with outputs := x.outputs.set i kv.2 })
          let σ := renameChildren σ node.children output kv.2
          let m := m.eraseP (fun e => e.1 == output)
          if m.isEmpty then (σ, m)
          else renameOutputsLoop nm (i + 1) fuel σ m

/-- The outer `for node in nodes` loop, iterating in the original node
order (objects are re-read from the state by name). -/
def renamePass : List String → List Node → List (String × String) →
    List Node × List (String × String)
  | [], σ, m => (σ, m)
  | nm :: rest, σ, m =>
    match σ.find? (fun x => x.name == nm) with
    | none => renamePass rest σ m
    | some node =>
      let (σ2, m2) := renameOutputsLoop nm 0 node.outputs.length σ m
      renamePass rest σ2 m2

/-- `OutputRenamer.__call__` together with the final state of its private
copy of the mapping. -/
def OutputRenamer.run (g : Graph) (mapping : List (String × String)) :
    Graph × List (String × String) :=
  let (σ, m) := renamePass (g.nodes.map (·.name)) g.nodes mapping
  ({ g with nodes := σ }, m)

/-- `OutputRenamer.__call__` proper: the returned graph. -/
def OutputRenamer.call (g : Graph) (mapping : List (String × String)) : Graph :=
  (OutputRenamer.run g mapping).1

/-! ## C1: the matching window is always extended after a full prefix -/

/-- Invariant of every node inserted into `nodes_window` by the upward
walk: it was only inserted after its single parent was resolved and that
parent was seen to have exactly one child. -/
def goodWindowNode (g : Graph) (m : Node) : Prop :=
  ∃ p, get_only_parent g m = some p ∧ p.children.length = 1

lemma windowLoop_head_good (g : Graph) :
    ∀ fuel (n : Node) (acc : List Node),
      (∀ hd tl, acc = hd :: tl → goodWindowNode g hd) →
      ∀ hd tl, windowLoop g fuel n acc = hd :: tl → goodWindowNode g hd := by
  intro fuel
  induction fuel with
  | zero =>
    intro n acc hacc hd tl h
    unfold windowLoop at h
    exact hacc hd tl h
  | succ f ih =>
    intro n acc hacc hd tl h
    unfold windowLoop at h
    split at h
    · exact hacc hd tl h
    · rename_i p hp
      split at h
      · exact hacc hd tl h
      · rename_i hc
        refine ih p (n :: acc) ?_ hd tl h
        intro hd2 tl2 heq
        cases heq
        exact ⟨p, hp, by omega⟩

/-- Windows produced by the walk never exceed the fuel in length. -/
lemma windowLoop_length_le (g : Graph) :
    ∀ fuel (n : Node) (acc : List Node),
      (windowLoop g fuel n acc).length ≤ acc.length + fuel := by
  intro fuel
  induction fuel with
  | zero => intro n acc; unfold windowLoop; omega
  | succ f ih =>
    intro n acc
    unfold windowLoop
    split
    · omega
    · rename_i p hp
      split
      · omega
      · have := ih p (n :: acc)
        simp only [List.length_cons] at this ⊢
        omega

/-- C1 (confirmed): in `NodesFuser.__call__`, whenever the upward walk
has collected a full `(k-1)`-length strictly linear prefix, the window is
extended by the parent of the earliest collected node -- that parent
always exists (and, the walk having already checked it, always has
exactly one child), so the extension is unconditional -- and the
resulting window of length `k` is exactly the accepted one; in general a
window is accepted (survives to the `is_eligible` call) iff its final
length equals `k`. -/
theorem nodesFuser_full_prefix_extended (g : Graph) (k : Nat) (n : Node)
    (hk : 2 ≤ k) (hlen : (windowLoop g (k - 1) n []).length = k - 1) :
    (∃ p, buildWindow g k n = p :: windowLoop g (k - 1) n []) ∧
    (buildWindow g k n).length = k ∧
    (∀ w, acceptedWindow g k n = some w ↔
      (w = buildWindow g k n ∧ (buildWindow g k n).length = k)) := by
  have hne : windowLoop g (k - 1) n [] ≠ [] := by
    intro h
    rw [h] at hlen
    simp at hlen
    omega
  obtain ⟨hd, tl, hw⟩ := List.exists_cons_of_ne_nil hne
  have hgood : goodWindowNode g hd := by
    refine windowLoop_head_good g (k - 1) n [] ?_ hd tl hw
    intro hd2 tl2 h
    cases h
  obtain ⟨p, hp, hpc⟩ := hgood
  have hb : buildWindow g k n = p :: windowLoop g (k - 1) n [] := by
    unfold buildWindow
    rw [hw]
    simp only [hp, hpc, if_true]
  have hblen : (buildWindow g k n).length = k := by
    rw [hb]
    simp [hlen]
    omega
  refine ⟨⟨p, hb⟩, hblen, ?_⟩
  intro w
  unfold acceptedWindow
  rw [if_pos hblen]
  constructor
  · intro h
    cases h
    exact ⟨rfl, hblen⟩
  · intro ⟨h, _⟩
    rw [h]

/-- Concrete two-node chain used as witness data: a `Conv` feeding an
`Add` whose constant operand is a graph input, not an initializer. -/
def convW : Node :=
  { name := "A", op_type := "Conv", attrs := [], inputs := ["X", "W"],
    outputs := ["e"],
    input_tensors := [("W", ⟨[4, 1, 1, 1], [1, 1, 1, 1]⟩)],
    parents := [], children := ["B"] }

def addW : Node :=
  { name := "B", op_type := "Add",
    attrs := [("broadcast", AttrValue.int 1), ("axis", AttrValue.int 1)],
    inputs := ["e", "Bias"], outputs := ["out"], input_tensors := [],
    parents := ["A"], children := [] }

def graphW : Graph :=
  ⟨[convW, addW], [("X", [1, 3, 2, 2]), ("Bias", [4])], [("out", [1, 4, 2, 2])]⟩

/-- Witness for C1: on a concrete two-node chain the hypotheses hold and
the accepted window is the extended one. -/
theorem nodesFuser_full_prefix_extended_witness :
    2 ≤ 2 ∧ (windowLoop graphW (2 - 1) addW []).length = 2 - 1 ∧
    ((∃ p, buildWindow graphW 2 addW = p :: windowLoop graphW (2 - 1) addW []) ∧
      (buildWindow graphW 2 addW).length = 2 ∧
      (∀ w, acceptedWindow graphW 2 addW = some w ↔
        (w = buildWindow graphW 2 addW ∧ (buildWindow graphW 2 addW).length = 2))) :=
  ⟨by decide, by decide,
    nodesFuser_full_prefix_extended graphW 2 addW (by decide) (by decide)⟩

/-! ## C2: characterization of `PixelShuffleFuser.is_eligible` -/

/-- The eligibility pattern exactly as the spec states it: window is
Reshape-Transpose-Reshape, first shape `[1, C, s, s, H, W]` with equal
scale dimensions, permutation `[0, 1, 4, 2, 5, 3]`, final shape exactly
`[1, C, H*s, W*s]` -- in particular with leading dimension `1`. -/
def pixelShuffleSpecEligible (nodes : List Node) : Prop :=
  match nodes with
  | [n0, n1, n2] =>
    ∃ C s H W, n0.op_type = "Reshape" ∧ n1.op_type = "Transpose" ∧
      n2.op_type = "Reshape" ∧
      n0.attr "shape" = some (AttrValue.list [1, C, s, s, H, W]) ∧
      n1.attr "perm" = some (AttrValue.list [0, 1, 4, 2, 5, 3]) ∧
      n2.attr "shape" = some (AttrValue.list [1, C, H * s, W * s])
  | _ => False

/-- C2 counterexample data: an eligible window whose final `Reshape` has
leading dimension `7`, not `1`. -/
def psLead0 : Node :=
  { name := "r1", op_type := "Reshape",
    attrs := [("shape", AttrValue.list [1, 2, 3, 3, 4, 5])],
    inputs := ["i"], outputs := ["a"], input_tensors := [],
    parents := [], children := ["t1"] }

def psLead1 : Node :=
  { name := "t1", op_type := "Transpose",
    attrs := [("perm", AttrValue.list [0, 1, 4, 2, 5, 3])],
    inputs := ["a"], outputs := ["b"], input_tensors := [],
    parents := ["r1"], children := ["r2"] }

def psLead2 : Node :=
  { name := "r2", op_type := "Reshape",
    attrs := [("shape", AttrValue.list [7, 2, 12, 15])],
    inputs := ["b"], outputs := ["c"], input_tensors := [],
    parents := ["t1"], children := [] }

/-- C2 counterexample: `PixelShuffleFuser.is_eligible` accepts a window
whose final `Reshape` shape is `[7, 2, 12, 15]` -- its leading dimension
is never checked -- so eligibility is not equivalent to the spec's
pattern, which demands a leading `1`. -/
theorem pixelShuffle_eligible_leading_dim_counterexample :
    PixelShuffleFuser.is_eligible [psLead0, psLead1, psLead2] = some true ∧
    ¬ pixelShuffleSpecEligible [psLead0, psLead1, psLead2] := by
  constructor
  · decide
  · rintro ⟨C, s, H, W, -, -, -, -, -, h2⟩
    have h : psLead2.attr "shape" = some (AttrValue.list [7, 2, 12, 15]) := by decide
    rw [h] at h2
    simp only [Option.some.injEq, AttrValue.list.injEq, List.cons.injEq] at h2
    omega

/-- C2 (corrected): `PixelShuffleFuser.is_eligible` returns `true` iff
the window is Reshape-Transpose-Reshape with first shape attribute
`[1, C, s, s, H, W]` (equal scale dimensions), permutation exactly
`[0, 1, 4, 2, 5, 3]`, and final shape attribute `[N, C, H*s, W*s]` for an
arbitrary leading dimension `N` -- the code never constrains `N` to `1`. -/
theorem pixelShuffle_is_eligible_iff (n0 n1 n2 : Node) (rest : List Node) :
    PixelShuffleFuser.is_eligible (n0 :: n1 :: n2 :: rest) = some true ↔
    ∃ C s H W N, n0.op_type = "Reshape" ∧ n1.op_type = "Transpose" ∧
      n2.op_type = "Reshape" ∧
      n0.attr "shape" = some (AttrValue.list [1, C, s, s, H, W]) ∧
      n1.attr "perm" = some (AttrValue.list [0, 1, 4, 2, 5, 3]) ∧
      n2.attr "shape" = some (AttrValue.list [N, C, H * s, W * s]) := by
  constructor
  · intro h
    simp only [PixelShuffleFuser.is_eligible] at h
    split at h
    · simp at h
    · split at h
      · simp at h
      · split at h
        · simp at h
        · rename_i hop0 hop1 hop2
          split at h
          · simp at h
          · rename_i shape hshape
            split at h
            · rename_i d0 C s d3 H W
              split at h
              · simp at h
              · rename_i hd
                push_neg at hd
                obtain ⟨hd0, hsd⟩ := hd
                split at h
                · simp at h
                · rename_i hperm
                  split at h
                  · simp at h
                  · rename_i shape2 hshape2
                    split at h
                    · rename_i N oc oh ow
                      split at h
                      · simp at h
                      · split at h
                        · simp at h
                        · split at h
                          · simp at h
                          · rename_i hc hh hw
                            push_neg at hc hh hw
                            refine ⟨C, s, H, W, N, not_ne_iff.mp hop0,
                              not_ne_iff.mp hop1, not_ne_iff.mp hop2, ?_, ?_, ?_⟩
                            · have := hshape
                              unfold Node.attrIntList at this
                              subst hd0 hsd
                              cases ha : n0.attr "shape" <;> rw [ha] at this
                              · simp at this
                              · rename_i v
                                cases v <;> simp_all
                            · rcases hg : n1.attr "perm" with - | v
                              · rw [hg] at hperm
                                simp at hperm
                              · rw [hg] at hperm
                                simp only [Option.getD_some] at hperm
                                push_neg at hperm
                                rw [hperm]
                            · have := hshape2
                              unfold Node.attrIntList at this
                              subst hc hh hw
                              cases ha : n2.attr "shape" <;> rw [ha] at this
                              · simp at this
                              · rename_i v
                                cases v <;> simp_all
                    · rename_i hlen
                      simp at h
            · rename_i hlen
              simp at h
  · rintro ⟨C, s, H, W, N, hop0, hop1, hop2, hs0, hperm, hs2⟩
    simp only [PixelShuffleFuser.is_eligible, hop0, hop1, hop2, Node.attrIntList,
      hs0, hperm, hs2]
    norm_num

/-! ## C3: the `PixelShuffleFuser.merge` rewrite -/

/-- Small graph around the counterexample window. -/
def gPS : Graph := ⟨[psLead0, psLead1, psLead2], [("i", [1, 2, 12, 15])], [("c", [7, 2, 12, 15])]⟩

/-- C3 counterexample: on a concrete eligible window the merge calls the
unique-name generator three times (`num_added` goes from 0 to 3), one
per internal edge after the first node -- not two as claimed -- and the
final node of the returned chain keeps its original shape attribute
(here `[7, 2, 12, 15]`, which does not have the claimed form
`[1, C, H*s, W*s]`). -/
theorem pixelShuffle_merge_three_names_counterexample :
    PixelShuffleFuser.is_eligible [psLead0, psLead1, psLead2] = some true ∧
    (PixelShuffleFuser.merge gPS 0 [psLead0, psLead1, psLead2]).map (fun r => r.2) =
      some 3 ∧
    (PixelShuffleFuser.merge gPS 0 [psLead0, psLead1, psLead2]).map
        (fun r => r.1.map (fun n => n.outputs)) =
      some [["a"], ["pixel_shuffle_transpose_1"], ["pixel_shuffle_reshape_2"],
            ["pixel_shuffle_transpose_3"], ["c"]] ∧
    (PixelShuffleFuser.merge gPS 0 [psLead0, psLead1, psLead2]).map
        (fun r => r.1.map (fun n => n.attr "shape")) =
      some [some (AttrValue.list [2, 9, 4, 5]), none,
            some (AttrValue.list [8, 3, 3, 5]), none,
            some (AttrValue.list [7, 2, 12, 15])] := by
  refine ⟨by decide, by decide, by decide, by decide⟩

/-- C3 (corrected): for an eligible window `[r1, t1, fr]` whose first
shape attribute is `[1, C, s, s, H, W]`, `PixelShuffleFuser.merge`
returns the 5-node sequence Reshape `[C, s*s, H, W]`, Transpose
`[0, 2, 1, 3]`, Reshape `[C*H, s, s, W]`, Transpose `[0, 1, 3, 2]`, and
the original final Reshape (keeping its own shape attribute), wired as a
parent/child chain in that order, and synthesizes exactly THREE new
intermediate edge names via the graph's unique-name generator (the
counter rises from `st` to `st + 3`), one per internal edge after the
first node. -/
theorem pixelShuffleFuser_merge_spec (g : Graph) (st : Nat) (r1 t1 fr : Node)
    (C s H W : Int)
    (helig : PixelShuffleFuser.is_eligible [r1, t1, fr] = some true)
    (hshape : r1.attr "shape" = some (AttrValue.list [1, C, s, s, H, W]))
    (hchain1 : r1.children = [t1.name]) (hchain2 : t1.parents = [r1.name]) :
    PixelShuffleFuser.merge g st [r1, t1, fr] =
      some ([
        { r1 with attrs := setAttr r1.attrs "shape" (AttrValue.list [C, s * s, H, W]) },
        { t1 with children := ["pixel_shuffle_reshape"], attrs := setAttr t1.attrs "perm" (AttrValue.list [0, 2, 1, 3]), outputs := [g.get_unique_edge_name ("pixel_shuffle_transpose" ++ "_" ++ toString (st + 1))] },
        { name := "pixel_shuffle_reshape", op_type := "Reshape", attrs := [("shape", AttrValue.list [C * H, s, s, W])], inputs := [g.get_unique_edge_name ("pixel_shuffle_transpose" ++ "_" ++ toString (st + 1))], outputs := [g.get_unique_edge_name ("pixel_shuffle_reshape" ++ "_" ++ toString (st + 2))], input_tensors := [], parents := [t1.name], children := ["pixel_shuffle_transpose"] },
        { name := "pixel_shuffle_transpose", op_type := "Transpose", attrs := [("perm", AttrValue.list [0, 1, 3, 2])], inputs := [g.get_unique_edge_name ("pixel_shuffle_reshape" ++ "_" ++ toString (st + 2))], outputs := [g.get_unique_edge_name ("pixel_shuffle_transpose" ++ "_" ++ toString (st + 3))], input_tensors := [], parents := ["pixel_shuffle_reshape"], children := [fr.name] },
        { fr with inputs := [g.get_unique_edge_name ("pixel_shuffle_transpose" ++ "_" ++ toString (st + 3))], parents := ["pixel_shuffle_transpose"] }], st + 3) ∧
    r1.children = [t1.name] ∧ t1.parents = [r1.name] := by
  refine ⟨?_, hchain1, hchain2⟩
  have hs : r1.attrIntList "shape" = some [1, C, s, s, H, W] := by
    unfold Node.attrIntList
    rw [hshape]
  simp only [PixelShuffleFuser.merge, hs, PixelShuffleFuser.get_unique_edge_name]

/-- Witness for C3: concrete eligible window satisfying all hypotheses;
the merge yields the five-node chain and three synthesized names. -/
theorem pixelShuffleFuser_merge_spec_witness :
    PixelShuffleFuser.is_eligible [psLead0, psLead1, psLead2] = some true ∧
    psLead0.attr "shape" = some (AttrValue.list [1, 2, 3, 3, 4, 5]) ∧
    psLead0.children = [psLead1.name] ∧ psLead1.parents = [psLead0.name] ∧
    (PixelShuffleFuser.merge gPS 0 [psLead0, psLead1, psLead2]).map (fun r => r.2) =
      some (0 + 3) := by
  refine ⟨by decide, by decide, by decide, by decide, ?_⟩
  have h := pixelShuffleFuser_merge_spec gPS 0 psLead0 psLead1 psLead2 2 3 4 5
    (by decide) (by decide) (by decide) (by decide)
  rw [h.1]
  rfl

/-! ## C5, C6: the arithmetic of `ConvAddFuser.merge` and
`BNBroadcastedMulFuser.merge` -/

/-- Looking up the key just stored by a Python dict assignment yields the
stored value. -/
lemma setTensor_find (ts : List (String × Tensor)) (k : String) (v : Tensor) :
    ((setTensor ts k v).find? (fun kv => kv.1 == k)).map (·.2) = some v := by
  unfold setTensor
  split
  · rename_i h
    induction ts with
    | nil => simp at h
    | cons hd tl ih =>
      simp only [List.any_cons, Bool.or_eq_true] at h
      by_cases hk : hd.1 = k
      · simp [hk]
      · have hk2 : (hd.1 == k) = false := by simpa using hk
        rcases h with h | h
        · rw [hk2] at h; cases h
        · have hmap : ((hd :: tl).map (fun kv => if kv.1 == k then (k, v) else kv)) =
              hd :: tl.map (fun kv => if kv.1 == k then (k, v) else kv) := by
            rw [List.map_cons, if_neg (fun hcon => hk (by simpa using hcon))]
          rw [hmap, List.find?_cons_of_neg _ (by simp [hk2])]
          exact ih h
  · rename_i h
    have hnone : ts.find? (fun kv => kv.1 == k) = none := by
      rw [List.find?_eq_none]
      intro x hx
      by_contra hcon
      exact h (List.any_eq_true.mpr ⟨x, hx, by simpa using hcon⟩)
    rw [List.find?_append, hnone]
    simp

lemma zipWith_add_replicate_zero (l : List Int) :
    List.zipWith (· + ·) (List.replicate l.length 0) l = l := by
  induction l with
  | nil => rfl
  | cons hd tl ih => simp [List.replicate_succ, ih]

lemma zipWith_add_self (l : List Int) :
    List.zipWith (· + ·) l l = l.map (fun x => 2 * x) := by
  induction l with
  | nil => rfl
  | cons hd tl ih => simp [ih, two_mul]


/-- C5 (confirmed): for an eligible Conv-Add window, `ConvAddFuser.merge`
adds the Add node's constant operand to the Conv's bias tensor and the
Conv adopts the Add's output edge; with no existing bias (2 inputs) a
zero bias of shape `(output_channels,)` is created first, so the fused
node has 3 inputs and its bias tensor equals the Add constant `b`
exactly; with an existing bias it is summed elementwise, so an existing
bias equal to `b` becomes `2 * b`. -/
theorem convAddFuser_merge_spec (parent child : Node) (wn an : String)
    (wt b : Tensor) (oc : Nat)
    (helig : ConvAddFuser.is_eligible [parent, child] = some true)
    (hwn : parent.inputs.get? 1 = some wn)
    (hwt : parent.tensor wn = some wt)
    (hoc : wt.shape.head? = some oc)
    (han : child.inputs.get? 1 = some an)
    (hb : child.tensor an = some b)
    (hbs : b.shape = [oc]) (hbd : b.data.length = oc)
    (hpc : child.name ∈ parent.children) (hcp : parent.name ∈ child.parents) :
    (parent.inputs.length = 2 →
      ConvAddFuser.merge [parent, child] =
        some { parent with
                inputs := parent.inputs ++ [parent.name ++ "_bias"],
                input_tensors := setTensor parent.input_tensors (parent.name ++ "_bias") b,
                outputs := child.outputs,
                children := parent.children.erase child.name }) ∧
    (∀ bn bt, parent.inputs.length = 3 → parent.inputs.get? 2 = some bn →
      parent.tensor bn = some bt → bt.shape = [oc] →
      ConvAddFuser.merge [parent, child] =
        some { parent with
                input_tensors := setTensor parent.input_tensors bn
                  ⟨bt.shape, List.zipWith (· + ·) bt.data b.data⟩,
                outputs := child.outputs,
                children := parent.children.erase child.name }) ∧
    (∀ bn, parent.inputs.length = 3 → parent.inputs.get? 2 = some bn →
      parent.tensor bn = some b →
      ConvAddFuser.merge [parent, child] =
        some { parent with
                input_tensors := setTensor parent.input_tensors bn
                  ⟨b.shape, b.data.map (fun x => 2 * x)⟩,
                outputs := child.outputs,
                children := parent.children.erase child.name }) := by
  refine ⟨?_, ?_, ?_⟩
  · intro hlen
    have hz : Tensor.add (Tensor.zeros oc) b = some b := by
      cases b with
      | mk bs bd =>
        simp only [Tensor.mk.injEq] at hbs
        simp only at hbd
        subst hbs
        unfold Tensor.add Tensor.zeros
        rw [if_pos rfl, ← hbd, zipWith_add_replicate_zero]
    simp only [ConvAddFuser.merge, Option.bind_eq_bind, Option.pure_def,
      Option.some_bind, hwn, hwt, hoc, han, hb, hlen, hz]
    norm_num
    intro hcon
    exact absurd hcp (hcon hpc)
  · intro bn bt hlen hbn hbt hbts
    have ha : Tensor.add bt b = some ⟨bt.shape, List.zipWith (· + ·) bt.data b.data⟩ := by
      unfold Tensor.add
      rw [if_pos (by rw [hbs, hbts])]
    simp only [ConvAddFuser.merge, Option.bind_eq_bind, Option.pure_def,
      Option.some_bind, hwn, hwt, hoc, han, hb, hlen, hbn, hbt, ha]
    norm_num
    intro hcon
    exact absurd hcp (hcon hpc)
  · intro bn hlen hbn hbt
    have ha : Tensor.add b b = some ⟨b.shape, b.data.map (fun x => 2 * x)⟩ := by
      unfold Tensor.add
      rw [if_pos rfl, zipWith_add_self]
    simp only [ConvAddFuser.merge, Option.bind_eq_bind, Option.pure_def,
      Option.some_bind, hwn, hwt, hoc, han, hb, hlen, hbn, hbt, ha]
    norm_num
    intro hcon
    exact absurd hcp (hcon hpc)

/-- Concrete Conv node without bias (2 inputs) feeding `addConstB`. -/
def convNoBias : Node :=
  { name := "conv", op_type := "Conv", attrs := [], inputs := ["X", "W"],
    outputs := ["e"],
    input_tensors := [("W", ⟨[2, 3, 1, 1], [1, 1, 1, 1, 1, 1]⟩)],
    parents := [], children := ["add"] }

/-- Concrete broadcast Add node with a stored constant operand. -/
def addConstB : Node :=
  { name := "add", op_type := "Add",
    attrs := [("broadcast", AttrValue.int 1), ("axis", AttrValue.int 1)],
    inputs := ["e", "b"], outputs := ["out"],
    input_tensors := [("b", ⟨[2], [5, 7]⟩)],
    parents := ["conv"], children := [] }

/-- Witness for C5: on the concrete no-bias Conv the merge creates the
bias input and stores exactly the Add constant, adopting the Add output. -/
theorem convAddFuser_merge_spec_witness :
    ConvAddFuser.is_eligible [convNoBias, addConstB] = some true ∧
    convNoBias.inputs.length = 2 ∧
    (ConvAddFuser.merge [convNoBias, addConstB]).map
        (fun p => (p.inputs, p.tensor "conv_bias", p.outputs)) =
      some (["X", "W", "conv_bias"], some ⟨[2], [5, 7]⟩, ["out"]) := by
  refine ⟨by decide, by decide, ?_⟩
  have h := (convAddFuser_merge_spec convNoBias addConstB "W" "b"
    (⟨[2, 3, 1, 1], [1, 1, 1, 1, 1, 1]⟩ : Tensor) (⟨[2], [5, 7]⟩ : Tensor) 2
    (by decide) (by decide) (by decide) (by decide) (by decide) (by decide)
    (by decide) (by decide) (by decide) (by decide)).1 (by decide)
  rw [h]
  rfl

/-- C6 (confirmed): for an eligible BatchNormalization-Mul window with
constant operand `W`, `BNBroadcastedMulFuser.merge` replaces the
BatchNorm's scale tensor by `scale .* W` and its bias tensor by
`bias .* W` (elementwise), and the BatchNorm adopts the Mul's outputs. -/
theorem bnBroadcastedMulFuser_merge_spec (parent child : Node) (sn bn wn : String)
    (scale bias w : Tensor)
    (helig : BNBroadcastedMulFuser.is_eligible [parent, child] = some true)
    (hsn : parent.inputs.get? 1 = some sn) (hscale : parent.tensor sn = some scale)
    (hbn : parent.inputs.get? 2 = some bn) (hbias : parent.tensor bn = some bias)
    (hwn : child.inputs.get? 1 = some wn) (hw : child.tensor wn = some w)
    (hs1 : scale.shape = w.shape) (hs2 : bias.shape = w.shape)
    (hpc : child.name ∈ parent.children) (hcp : parent.name ∈ child.parents) :
    BNBroadcastedMulFuser.merge [parent, child] =
      some { parent with
              input_tensors := setTensor (setTensor parent.input_tensors sn
                  ⟨scale.shape, List.zipWith (· * ·) scale.data w.data⟩) bn
                  ⟨bias.shape, List.zipWith (· * ·) bias.data w.data⟩,
              outputs := child.outputs,
              children := parent.children.erase child.name } := by
  have h1 : Tensor.mul scale w =
      some ⟨scale.shape, List.zipWith (· * ·) scale.data w.data⟩ := by
    unfold Tensor.mul
    rw [if_pos hs1]
  have h2 : Tensor.mul bias w =
      some ⟨bias.shape, List.zipWith (· * ·) bias.data w.data⟩ := by
    unfold Tensor.mul
    rw [if_pos hs2]
  simp only [BNBroadcastedMulFuser.merge, Option.bind_eq_bind, Option.some_bind,
    hsn, hscale, hbn, hbias, hwn, hw, h1, h2]
  rw [if_pos ⟨hpc, hcp⟩]

/-- Concrete BatchNormalization node with stored scale and bias. -/
def bnNode : Node :=
  { name := "bn", op_type := "BatchNormalization", attrs := [],
    inputs := ["X", "s", "b", "m", "v"], outputs := ["e"],
    input_tensors := [("s", ⟨[2], [2, 3]⟩), ("b", ⟨[2], [1, 4]⟩)],
    parents := [], children := ["mul"] }

/-- Concrete broadcast Mul node with a stored constant operand. -/
def mulNode : Node :=
  { name := "mul", op_type := "Mul",
    attrs := [("broadcast", AttrValue.int 1), ("axis", AttrValue.int 1)],
    inputs := ["e", "w"], outputs := ["out"],
    input_tensors := [("w", ⟨[2], [10, 100]⟩)],
    parents := ["bn"], children := [] }

/-- Witness for C6: the fused BatchNorm's scale is `[2,3] .* [10,100] =
[20,300]`, its bias `[1,4] .* [10,100] = [10,400]`, outputs `["out"]`. -/
theorem bnBroadcastedMulFuser_merge_spec_witness :
    BNBroadcastedMulFuser.is_eligible [bnNode, mulNode] = some true ∧
    (BNBroadcastedMulFuser.merge [bnNode, mulNode]).map
        (fun p => (p.tensor "s", p.tensor "b", p.outputs)) =
      some (some ⟨[2], [20, 300]⟩, some ⟨[2], [10, 400]⟩, ["out"]) := by
  refine ⟨by decide, ?_⟩
  have h := bnBroadcastedMulFuser_merge_spec bnNode mulNode "s" "b" "w"
    (⟨[2], [2, 3]⟩ : Tensor) (⟨[2], [1, 4]⟩ : Tensor) (⟨[2], [10, 100]⟩ : Tensor)
    (by decide) (by decide) (by decide) (by decide) (by decide) (by decide)
    (by decide) (by decide) (by decide) (by decide) (by decide)
  rw [h]
  rfl

/-! ## C10: eligibility without a literal check makes the merge fail -/

/-- C10 (confirmed): `ConvAddFuser.is_eligible` never consults the Add's
`input_tensors`, so a matched, accepted and eligible Conv-Add window in
`graphW` -- whose Add takes its second operand `"Bias"` from a graph
input, not an initializer -- drives `ConvAddFuser.merge` into the failing
lookup `child.input_tensors[child.inputs[1]]` (a KeyError, `none` here)
instead of leaving the window untouched. -/
theorem convAdd_merge_error_on_nonliteral_operand :
    acceptedWindow graphW 2 addW = some [convW, addW] ∧
    ConvAddFuser.is_eligible [convW, addW] = some true ∧
    ("Bias", [4]) ∈ graphW.inputs ∧
    addW.inputs.get? 1 = some "Bias" ∧
    addW.tensor "Bias" = none ∧
    ConvAddFuser.merge [convW, addW] = none := by
  refine ⟨by decide, by decide, by decide, by decide, by decide, by decide⟩

/-! ## C4: missing attributes and wrong op types in eligibility checks -/

/-- Three-node linear chain whose head `Reshape` carries no attributes at
all -- in particular no `shape`. -/
def noShapeA : Node :=
  { name := "A3", op_type := "Reshape", attrs := [], inputs := ["i"],
    outputs := ["a"], input_tensors := [], parents := [], children := ["B3"] }

def noPermB : Node :=
  { name := "B3", op_type := "Transpose", attrs := [], inputs := ["a"],
    outputs := ["b"], input_tensors := [], parents := ["A3"], children := ["C3"] }

def noShapeC : Node :=
  { name := "C3", op_type := "Reshape", attrs := [], inputs := ["b"],
    outputs := ["c"], input_tensors := [], parents := ["B3"], children := [] }

def gC4 : Graph := ⟨[noShapeA, noPermB, noShapeC], [("i", [1])], [("c", [1])]⟩

/-- C4 counterexample: the chain `noShapeA -> noPermB -> noShapeC` is a
matched, accepted 3-node window and every node has the right op type, yet
`PixelShuffleFuser.is_eligible` raises KeyError (modelled `none`) on the
unguarded `nodes[0].attrs['shape']` read instead of returning false: a
missing attribute needed by this eligibility check IS fatal. -/
theorem pixelShuffle_eligibility_raises_counterexample :
    acceptedWindow gC4 3 noShapeC = some [noShapeA, noPermB, noShapeC] ∧
    noShapeA.attr "shape" = none ∧
    PixelShuffleFuser.is_eligible [noShapeA, noPermB, noShapeC] = none := by
  refine ⟨by decide, by decide, by decide⟩

/-- C4 (corrected): a wrong op type makes every rule's `is_eligible`
return `false` without raising, and a missing `broadcast`/`axis`
attribute makes the four 2-node rules return `false` without raising; for
`PixelShuffleFuser` a missing `perm` is tolerated (treated as not
eligible) -- but a missing `shape` raises, see the counterexample. -/
theorem eligibility_missing_attr_or_wrong_op (p c n0 n1 n2 : Node) (rest : List Node) :
    (p.op_type ≠ "Conv" → ConvAddFuser.is_eligible (p :: c :: rest) = some false) ∧
    (c.op_type ≠ "Add" → ConvAddFuser.is_eligible (p :: c :: rest) = some false) ∧
    (c.attr "broadcast" = none → ConvAddFuser.is_eligible (p :: c :: rest) = some false) ∧
    (c.attr "axis" = none → ConvAddFuser.is_eligible (p :: c :: rest) = some false) ∧
    (p.op_type ≠ "BatchNormalization" → BNBroadcastedMulFuser.is_eligible (p :: c :: rest) = some false) ∧
    (c.op_type ≠ "Mul" → BNBroadcastedMulFuser.is_eligible (p :: c :: rest) = some false) ∧
    (c.attr "broadcast" = none → BNBroadcastedMulFuser.is_eligible (p :: c :: rest) = some false) ∧
    (c.attr "axis" = none → BNBroadcastedMulFuser.is_eligible (p :: c :: rest) = some false) ∧
    (p.op_type ≠ "BatchNormalization" → BNBroadcastedAddFuser.is_eligible (p :: c :: rest) = some false) ∧
    (c.op_type ≠ "Add" → BNBroadcastedAddFuser.is_eligible (p :: c :: rest) = some false) ∧
    (c.attr "broadcast" = none → BNBroadcastedAddFuser.is_eligible (p :: c :: rest) = some false) ∧
    (c.attr "axis" = none → BNBroadcastedAddFuser.is_eligible (p :: c :: rest) = some false) ∧
    (c.op_type ≠ "Dropout" → DropoutRemover.is_eligible (p :: c :: rest) = some false) ∧
    (n0.op_type ≠ "Reshape" → PixelShuffleFuser.is_eligible (n0 :: n1 :: n2 :: rest) = some false) ∧
    (n1.op_type ≠ "Transpose" → PixelShuffleFuser.is_eligible (n0 :: n1 :: n2 :: rest) = some false) ∧
    (n2.op_type ≠ "Reshape" → PixelShuffleFuser.is_eligible (n0 :: n1 :: n2 :: rest) = some false) ∧
    (∀ sh, n0.attrIntList "shape" = some sh → n1.attr "perm" = none →
      PixelShuffleFuser.is_eligible (n0 :: n1 :: n2 :: rest) = some false) := by
  refine ⟨?_, ?_, ?_, ?_, ?_, ?_, ?_, ?_, ?_, ?_, ?_, ?_, ?_, ?_, ?_, ?_, ?_⟩
  · intro h
    simp [ConvAddFuser.is_eligible, h]
  · intro h
    simp [ConvAddFuser.is_eligible, h]
  · intro h
    simp [ConvAddFuser.is_eligible, h]
  · intro h
    simp [ConvAddFuser.is_eligible, h]
  · intro h
    simp [BNBroadcastedMulFuser.is_eligible, h]
  · intro h
    simp [BNBroadcastedMulFuser.is_eligible, h]
  · intro h
    simp [BNBroadcastedMulFuser.is_eligible, h]
  · intro h
    simp [BNBroadcastedMulFuser.is_eligible, h]
  · intro h
    simp [BNBroadcastedAddFuser.is_eligible, h]
  · intro h
    simp [BNBroadcastedAddFuser.is_eligible, h]
  · intro h
    simp [BNBroadcastedAddFuser.is_eligible, h]
  · intro h
    simp [BNBroadcastedAddFuser.is_eligible, h]
  · intro h
    simp [DropoutRemover.is_eligible, h]
  · intro h
    simp [PixelShuffleFuser.is_eligible, h]
  · intro h
    simp [PixelShuffleFuser.is_eligible, h]
  · intro h
    simp [PixelShuffleFuser.is_eligible, h]
  · intro sh hsh hperm
    rcases sh with - | ⟨d0, - | ⟨ic, - | ⟨sf, - | ⟨d3, - | ⟨ih, - | ⟨iw, - | ⟨x, xs⟩⟩⟩⟩⟩⟩⟩ <;>
      simp [PixelShuffleFuser.is_eligible, hsh, hperm]

/-- Witness for C4: concrete instances of the wrong-op and
missing-attribute conjuncts. -/
theorem eligibility_missing_attr_or_wrong_op_witness :
    bnNode.op_type ≠ "Conv" ∧
    ConvAddFuser.is_eligible [bnNode, mulNode] = some false ∧
    psLead0.attrIntList "shape" = some [1, 2, 3, 3, 4, 5] ∧
    noPermB.attr "perm" = none ∧
    PixelShuffleFuser.is_eligible [psLead0, noPermB, psLead2] = some false := by
  refine ⟨by decide, ?_, by decide, by decide, ?_⟩
  · exact (eligibility_missing_attr_or_wrong_op bnNode mulNode noShapeA noPermB
      noShapeC []).1 (by decide)
  · exact (eligibility_missing_attr_or_wrong_op bnNode mulNode psLead0 noPermB
      psLead2 []).2.2.2.2.2.2.2.2.2.2.2.2.2.2.2.2 [1, 2, 3, 3, 4, 5]
      (by decide) (by decide)

/-! ## C9: dangling-output elimination is idempotent -/

/-- Filtering twice with the same predicate filters once. -/
lemma filter_self_idem {α : Type} (p : α → Bool) (l : List α) :
    (l.filter p).filter p = l.filter p := by
  induction l with
  | nil => rfl
  | cons hd tl ih =>
    by_cases h : p hd
    · simp [List.filter_cons, h, ih]
    · simp [List.filter_cons, h, ih]

/-- `find?` by name commutes with a name-preserving map. -/
lemma find?_map_name (l : List Node) (F : Node → Node)
    (hF : ∀ n, (F n).name = n.name) (c : String) :
    (l.map F).find? (fun m => m.name == c) = (l.find? (fun m => m.name == c)).map F := by
  induction l with
  | nil => rfl
  | cons hd tl ih =>
    by_cases h : hd.name = c
    · rw [List.map_cons, List.find?_cons_of_pos _ (by simp [hF, h]),
        List.find?_cons_of_pos _ (by simp [h])]
      rfl
    · rw [List.map_cons, List.find?_cons_of_neg _ (by simp [hF, h]),
        List.find?_cons_of_neg _ (by simp [h]), ih]

/-- The inputs gathered from a node's children are unchanged by a pass
that only rewrites fields other than `name` and `inputs`. -/
lemma childrenInputs_map (g : Graph) (F : Node → Node)
    (hFn : ∀ n, (F n).name = n.name) (hFi : ∀ n, (F n).inputs = n.inputs)
    (gi go : List (String × List Nat)) (m : Node) :
    childrenInputs ⟨g.nodes.map F, gi, go⟩ m = childrenInputs g m := by
  unfold childrenInputs Graph.findNode
  simp only
  congr 1
  funext c
  rw [find?_map_name g.nodes F hFn c]
  cases g.nodes.find? (fun x => x.name == c) with
  | none => rfl
  | some x => simp [hFi]

/-- C9 (confirmed): `DanglingOutputsRemover.__call__` is idempotent --
each pass drops a node output exactly when it is neither a declared graph
output nor listed among any child node's inputs, and a second application
changes nothing, because the pass leaves every node's children and inputs
(and the declared graph outputs) untouched. -/
theorem danglingOutputsRemover_idempotent (g : Graph) :
    DanglingOutputsRemover.call (DanglingOutputsRemover.call g) =
      DanglingOutputsRemover.call g := by
  unfold DanglingOutputsRemover.call
  simp only []
  congr 1
  set F0 : Node → Node := fun n =>
    { n with outputs := List.filter (fun o => decide (o ∈ List.map (fun x => x.1) g.outputs ∨ o ∈ childrenInputs g n)) n.outputs } with hF0
  have hkey : ∀ m, childrenInputs ⟨List.map F0 g.nodes, g.inputs, g.outputs⟩ m =
      childrenInputs g m :=
    fun m => childrenInputs_map g F0 (fun _ => rfl) (fun _ => rfl) _ _ m
  simp only [hkey]
  rw [List.map_map]
  apply List.map_congr_left
  intro n hn
  have hc : childrenInputs g (F0 n) = childrenInputs g n := rfl
  simp only [Function.comp_apply, hF0, hc, Node.mk.injEq]
  refine ⟨trivial, trivial, trivial, trivial, filter_self_idem _ _, trivial, trivial, trivial⟩

/-! ## C7: constant-reshape folding

`ReshapeInitTensorFuser.__call__` is a sequential in-place pass; the
proof tracks three invariants through the loop: the pass never touches a
node's `name`/`op_type`/`attrs`/`inputs`/`outputs`/`children`
(`skeletonEq`), a node that nobody lists as a child is never mutated
before its own turn, and a tensor entry attached under one of `r`'s
output names survives every later step because each later folding node
writes under its own, globally distinct, output name. -/

/-- The fields `ReshapeInitTensorFuser.__call__` never mutates. -/
def skeletonEq (a b : Node) : Prop :=
  a.name = b.name ∧ a.op_type = b.op_type ∧ a.attrs = b.attrs ∧
  a.inputs = b.inputs ∧ a.outputs = b.outputs ∧ a.children = b.children

lemma skeletonEq_refl (a : Node) : skeletonEq a a :=
  ⟨rfl, rfl, rfl, rfl, rfl, rfl⟩

lemma forall2_skeleton_refl (L : List Node) : List.Forall₂ skeletonEq L L := by
  induction L with
  | nil => exact List.Forall₂.nil
  | cons hd tl ih => exact List.Forall₂.cons (skeletonEq_refl hd) ih

lemma forall2_mem_left {R : Node → Node → Prop} :
    ∀ {σ L : List Node}, List.Forall₂ R σ L → ∀ {a}, a ∈ σ → ∃ b, b ∈ L ∧ R a b := by
  intro σ L h
  induction h with
  | nil => intro a ha; cases ha
  | cons hr hrest ih =>
    intro a ha
    rcases List.mem_cons.mp ha with h1 | h2
    · subst h1
      exact ⟨_, List.mem_cons_self _ _, hr⟩
    · obtain ⟨b, hb, hR⟩ := ih h2
      exact ⟨b, List.mem_cons_of_mem _ hb, hR⟩

lemma forall2_map_left {R : Node → Node → Prop} (φ : Node → Node)
    (hφ : ∀ a b, R a b → R (φ a) b) :
    ∀ {σ L : List Node}, List.Forall₂ R σ L → List.Forall₂ R (σ.map φ) L := by
  intro σ L h
  induction h with
  | nil => exact List.Forall₂.nil
  | cons hr hrest ih => exact List.Forall₂.cons (hφ _ _ hr) ih

lemma mem_updateNodeByName {σ : List Node} {nm : String} {f : Node → Node} {m : Node} :
    m ∈ updateNodeByName σ nm f →
    ∃ m0, m0 ∈ σ ∧ m = (if m0.name = nm then f m0 else m0) := by
  unfold updateNodeByName
  intro h
  obtain ⟨m0, hm0, heq⟩ := List.mem_map.mp h
  exact ⟨m0, hm0, heq.symm⟩

lemma setTensor_mem_self (ts : List (String × Tensor)) (k : String) (v : Tensor) :
    (k, v) ∈ setTensor ts k v := by
  unfold setTensor
  split
  · rename_i h
    induction ts with
    | nil => simp at h
    | cons hd tl ih =>
      simp only [List.any_cons, Bool.or_eq_true] at h
      by_cases hk : hd.1 = k
      · simp only [List.map_cons]
        rw [if_pos (show (hd.1 == k) = true from by simpa using hk)]
        exact List.mem_cons_self _ _
      · rcases h with h | h
        · rw [show (hd.1 == k) = false from by simpa using hk] at h
          cases h
        · simp only [List.map_cons, if_neg (fun hcon => hk (by simpa using hcon))]
          exact List.mem_cons_of_mem _ (ih h)
  · exact List.mem_append_right _ (List.mem_singleton.mpr rfl)

lemma setTensor_mem_preserve {ts : List (String × Tensor)} {k2 : String} {v2 : Tensor}
    (k : String) (v : Tensor) (hmem : (k2, v2) ∈ ts) (hne : k2 ≠ k) :
    (k2, v2) ∈ setTensor ts k v := by
  unfold setTensor
  split
  · refine List.mem_map.mpr ⟨(k2, v2), hmem, ?_⟩
    rw [if_neg (fun hcon => hne (by simpa using hcon))]
  · exact List.mem_append_left _ hmem

lemma outputs_disjoint {L : List Node} (houts : (L.flatMap Node.outputs).Nodup)
    {a b : Node} (ha : a ∈ L) (hb : b ∈ L) (hne : a ≠ b) {o : String}
    (hoa : o ∈ a.outputs) (hob : o ∈ b.outputs) : False := by
  have hp : L.Pairwise (List.Disjoint on Node.outputs) :=
    (List.nodup_flatMap.mp houts).2
  have hd := hp.forall (fun x y h => List.Disjoint.symm h) ha hb hne
  exact hd hoa hob

lemma reshapeFoldStep_cases (σ : List Node) (rem : List String) (nm : String)
    {σ2 : List Node} {rem2 : List String}
    (h : reshapeFoldStep σ rem nm = some (σ2, rem2)) :
    (σ2 = σ ∧ rem2 = rem) ∨
    ∃ node oname resh, σ.find? (fun m => m.name == nm) = some node ∧
      node.outputs.head? = some oname ∧
      σ2 = node.children.foldl (fun s c => updateNodeByName s c (fun child =>
        { child with parents := child.parents.erase node.name,
                     input_tensors := setTensor child.input_tensors oname resh })) σ ∧
      rem2 = rem ++ [nm] := by
  unfold reshapeFoldStep at h
  split at h
  · simp only [Option.some.injEq, Prod.mk.injEq] at h
    exact Or.inl ⟨h.1.symm, h.2.symm⟩
  · rename_i node hfind
    split at h
    · simp only [Option.some.injEq, Prod.mk.injEq] at h
      exact Or.inl ⟨h.1.symm, h.2.symm⟩
    · split at h
      · rename_i tn t hten
        split at h
        · cases h
        · rename_i i0 irest hinp
          split at h
          · simp only [Option.some.injEq, Prod.mk.injEq] at h
            exact Or.inl ⟨h.1.symm, h.2.symm⟩
          · split at h
            · cases h
            · split at h
              · cases h
              · rename_i oname orest hout
                split at h
                · cases h
                · rename_i shape hshape
                  split at h
                  · cases h
                  · rename_i resh hresh
                    simp only [Option.some.injEq, Prod.mk.injEq] at h
                    refine Or.inr ⟨node, oname, resh, hfind, ?_, h.1.symm, h.2.symm⟩
                    rw [hout]
                    rfl
      · simp only [Option.some.injEq, Prod.mk.injEq] at h
        exact Or.inl ⟨h.1.symm, h.2.symm⟩

lemma skeletonEq_trans {a b c : Node} (h1 : skeletonEq a b) (h2 : skeletonEq b c) :
    skeletonEq a c :=
  ⟨h1.1.trans h2.1, h1.2.1.trans h2.2.1, h1.2.2.1.trans h2.2.2.1,
   h1.2.2.2.1.trans h2.2.2.2.1, h1.2.2.2.2.1.trans h2.2.2.2.2.1,
   h1.2.2.2.2.2.trans h2.2.2.2.2.2⟩

lemma update_skeleton (f : Node → Node) (hf : ∀ x, skeletonEq (f x) x)
    {σ L : List Node} (h : List.Forall₂ skeletonEq σ L) (c : String) :
    List.Forall₂ skeletonEq (updateNodeByName σ c f) L := by
  unfold updateNodeByName
  refine forall2_map_left _ ?_ h
  intro a b hab
  by_cases hc : a.name = c
  · rw [if_pos hc]
    exact skeletonEq_trans (hf a) hab
  · rw [if_neg hc]
    exact hab

lemma foldl_update_skeleton (f : Node → Node) (hf : ∀ x, skeletonEq (f x) x) :
    ∀ (cs : List String) {σ L : List Node}, List.Forall₂ skeletonEq σ L →
    List.Forall₂ skeletonEq
      (cs.foldl (fun s c => updateNodeByName s c f) σ) L := by
  intro cs
  induction cs with
  | nil => intro σ L h; exact h
  | cons c rest ih =>
    intro σ L h
    exact ih (update_skeleton f hf h c)

lemma step_skeleton {L σ : List Node} {rem : List String} {nm : String}
    {σ2 : List Node} {rem2 : List String}
    (h : reshapeFoldStep σ rem nm = some (σ2, rem2))
    (hsk : List.Forall₂ skeletonEq σ L) : List.Forall₂ skeletonEq σ2 L := by
  rcases reshapeFoldStep_cases σ rem nm h with ⟨h1, -⟩ | ⟨node, oname, resh, -, -, h1, -⟩
  · rw [h1]
    exact hsk
  · rw [h1]
    exact foldl_update_skeleton
      (fun child => { child with parents := child.parents.erase node.name, input_tensors := setTensor child.input_tensors oname resh })
      (fun x => ⟨rfl, rfl, rfl, rfl, rfl, rfl⟩) node.children hsk

lemma forall2_map_names {σ L : List Node} (h : List.Forall₂ skeletonEq σ L) :
    σ.map Node.name = L.map Node.name := by
  induction h with
  | nil => rfl
  | cons hr hrest ih => simp [hr.1, ih]

lemma update_preserve_prop (f : Node → Node) (hfn : ∀ x, (f x).name = x.name)
    {σ : List Node} {tgt : String} {P : Node → Prop}
    {c : String} (hc : c ≠ tgt)
    (h : ∀ m ∈ σ, m.name = tgt → P m) :
    ∀ m ∈ updateNodeByName σ c f, m.name = tgt → P m := by
  intro m hm hname
  obtain ⟨m0, hm0, heq⟩ := mem_updateNodeByName hm
  by_cases h0 : m0.name = c
  · rw [if_pos h0] at heq
    subst heq
    rw [hfn] at hname
    exact absurd (h0.symm.trans hname) hc
  · rw [if_neg h0] at heq
    subst heq
    exact h _ hm0 hname

lemma foldl_update_preserve_prop (f : Node → Node) (hfn : ∀ x, (f x).name = x.name)
    {tgt : String} {P : Node → Prop} :
    ∀ (cs : List String), (∀ c ∈ cs, c ≠ tgt) → ∀ {σ : List Node},
    (∀ m ∈ σ, m.name = tgt → P m) →
    ∀ m ∈ cs.foldl (fun s c => updateNodeByName s c f) σ, m.name = tgt → P m := by
  intro cs
  induction cs with
  | nil => intro _ σ h; exact h
  | cons c rest ih =>
    intro hcs σ h
    exact ih (fun x hx => hcs x (List.mem_cons_of_mem _ hx))
      (update_preserve_prop f hfn (hcs c (List.mem_cons_self _ _)) h)

/-- A step never changes the state entry of a node that no node lists as
a child (its name being `tgt` and `P` its exact value). -/
lemma step_untouched {L σ : List Node} {rem : List String} {nm : String}
    {σ2 : List Node} {rem2 : List String} {r : Node}
    (h : reshapeFoldStep σ rem nm = some (σ2, rem2))
    (hsk : List.Forall₂ skeletonEq σ L)
    (hNoChild : ∀ m ∈ L, r.name ∉ m.children)
    (hinv : ∀ m ∈ σ, m.name = r.name → m = r) :
    ∀ m ∈ σ2, m.name = r.name → m = r := by
  rcases reshapeFoldStep_cases σ rem nm h with ⟨h1, -⟩ | ⟨node, oname, resh, hfind, -, h1, -⟩
  · rw [h1]
    exact hinv
  · rw [h1]
    have hnode : node ∈ σ := List.mem_of_find?_eq_some hfind
    obtain ⟨b, hb, hskb⟩ := forall2_mem_left hsk hnode
    have hch : node.children = b.children := hskb.2.2.2.2.2
    refine foldl_update_preserve_prop
      (fun child => { child with parents := child.parents.erase node.name, input_tensors := setTensor child.input_tensors oname resh })
      (fun x => rfl) node.children ?_ hinv
    intro c hc hcr
    subst hcr
    exact hNoChild b hb (hch ▸ hc)

/-- A step preserves the presence of a tensor entry keyed by one of `r`'s
output names in every state node named `cN`, because any other folding
node writes under its own (globally distinct) output name. -/
lemma step_tensor_preserve {L σ : List Node} {rem : List String} {nm : String}
    {σ2 : List Node} {rem2 : List String} {r : Node} {oname cN : String} {resh0 : Tensor}
    (h : reshapeFoldStep σ rem nm = some (σ2, rem2))
    (hsk : List.Forall₂ skeletonEq σ L)
    (houts : (L.flatMap Node.outputs).Nodup)
    (hrL : r ∈ L) (honame : oname ∈ r.outputs) (hnm : nm ≠ r.name)
    (hinv : ∀ m ∈ σ, m.name = cN → (oname, resh0) ∈ m.input_tensors) :
    ∀ m ∈ σ2, m.name = cN → (oname, resh0) ∈ m.input_tensors := by
  rcases reshapeFoldStep_cases σ rem nm h with ⟨h1, -⟩ | ⟨node, om, resh, hfind, hom, h1, -⟩
  · rw [h1]
    exact hinv
  · rw [h1]
    have hnode : node ∈ σ := List.mem_of_find?_eq_some hfind
    have hname : node.name = nm := by simpa using List.find?_some hfind
    obtain ⟨b, hb, hskb⟩ := forall2_mem_left hsk hnode
    have hbout : om ∈ b.outputs := by
      rw [← hskb.2.2.2.2.1]
      exact List.mem_of_mem_head? hom
    have hbne : b ≠ r := by
      intro hcon
      exact hnm (by rw [← hname, hskb.1, hcon])
    have homne : om ≠ oname := by
      intro hcon
      exact outputs_disjoint houts hb hrL hbne hbout (hcon ▸ honame)
    -- the fold only rewrites tensors under the key om ≠ oname
    clear h1 hfind hom h hsk hnode
    induction node.children generalizing σ with
    | nil => exact hinv
    | cons c rest ih =>
      simp only [List.foldl_cons]
      apply ih
      intro m hm hmn
      obtain ⟨m0, hm0, heq⟩ := mem_updateNodeByName hm
      by_cases h0 : m0.name = c
      · rw [if_pos h0] at heq
        subst heq
        exact setTensor_mem_preserve _ _ (hinv m0 hm0 hmn) homne.symm
      · rw [if_neg h0] at heq
        subst heq
        exact hinv _ hm0 hmn

lemma reshapeFoldLoop_append (l1 l2 : List String) :
    ∀ (σ : List Node) (rem : List String),
    reshapeFoldLoop (l1 ++ l2) σ rem =
      match reshapeFoldLoop l1 σ rem with
      | none => none
      | some (σ2, rem2) => reshapeFoldLoop l2 σ2 rem2 := by
  induction l1 with
  | nil => intro σ rem; rfl
  | cons nm rest ih =>
    intro σ rem
    show (match reshapeFoldStep σ rem nm with
      | none => none
      | some (σ2, rem2) => reshapeFoldLoop (rest ++ l2) σ2 rem2) = _
    cases hstep : reshapeFoldStep σ rem nm with
    | none =>
      show none = (match (match reshapeFoldStep σ rem nm with
        | none => none
        | some (σ2, rem2) => reshapeFoldLoop rest σ2 rem2) with
        | none => none
        | some (σ2, rem2) => reshapeFoldLoop l2 σ2 rem2)
      rw [hstep]
    | some st =>
      show reshapeFoldLoop (rest ++ l2) st.1 st.2 = (match (match reshapeFoldStep σ rem nm with
        | none => none
        | some (σ2, rem2) => reshapeFoldLoop rest σ2 rem2) with
        | none => none
        | some (σ2, rem2) => reshapeFoldLoop l2 σ2 rem2)
      rw [hstep, ih st.1 st.2]

lemma step_removed_mono {σ : List Node} {rem : List String} {nm : String}
    {σ2 : List Node} {rem2 : List String}
    (h : reshapeFoldStep σ rem nm = some (σ2, rem2)) :
    ∀ x ∈ rem, x ∈ rem2 := by
  rcases reshapeFoldStep_cases σ rem nm h with ⟨-, h2⟩ | ⟨-, -, -, -, -, -, h2⟩
  · rw [h2]
    exact fun x hx => hx
  · rw [h2]
    exact fun x hx => List.mem_append_left _ hx

lemma loop_pre {L : List Node} {r : Node}
    (hNoChild : ∀ m ∈ L, r.name ∉ m.children) :
    ∀ (ns : List String) (σ : List Node) (rem : List String)
      (σf : List Node) (remf : List String),
    List.Forall₂ skeletonEq σ L →
    (∀ m ∈ σ, m.name = r.name → m = r) →
    reshapeFoldLoop ns σ rem = some (σf, remf) →
    List.Forall₂ skeletonEq σf L ∧ (∀ m ∈ σf, m.name = r.name → m = r) := by
  intro ns
  induction ns with
  | nil =>
    intro σ rem σf remf hsk hinv h
    simp only [reshapeFoldLoop, Option.some.injEq, Prod.mk.injEq] at h
    rw [← h.1]
    exact ⟨hsk, hinv⟩
  | cons nm rest ih =>
    intro σ rem σf remf hsk hinv h
    unfold reshapeFoldLoop at h
    split at h
    · cases h
    · rename_i σ2 rem2 hstep
      exact ih σ2 rem2 σf remf (step_skeleton hstep hsk)
        (step_untouched hstep hsk hNoChild hinv) h

lemma loop_post {L : List Node} {r : Node} {oname cN : String} {resh0 : Tensor}
    (houts : (L.flatMap Node.outputs).Nodup)
    (hrL : r ∈ L) (honame : oname ∈ r.outputs) :
    ∀ (ns : List String), (∀ nm ∈ ns, nm ≠ r.name) →
    ∀ (σ : List Node) (rem : List String) (σf : List Node) (remf : List String),
    List.Forall₂ skeletonEq σ L →
    (∀ m ∈ σ, m.name = cN → (oname, resh0) ∈ m.input_tensors) →
    reshapeFoldLoop ns σ rem = some (σf, remf) →
    (∀ m ∈ σf, m.name = cN → (oname, resh0) ∈ m.input_tensors) ∧
    (∀ x ∈ rem, x ∈ remf) := by
  intro ns
  induction ns with
  | nil =>
    intro _ σ rem σf remf hsk hinv h
    simp only [reshapeFoldLoop, Option.some.injEq, Prod.mk.injEq] at h
    rw [← h.1, ← h.2]
    exact ⟨hinv, fun x hx => hx⟩
  | cons nm rest ih =>
    intro hns σ rem σf remf hsk hinv h
    unfold reshapeFoldLoop at h
    split at h
    · cases h
    · rename_i σ2 rem2 hstep
      have hrec := ih (fun x hx => hns x (List.mem_cons_of_mem _ hx)) σ2 rem2 σf remf
        (step_skeleton hstep hsk)
        (step_tensor_preserve hstep hsk houts hrL honame
          (hns nm (List.mem_cons_self _ _)) hinv)
        h
      exact ⟨hrec.1, fun x hx => hrec.2 x (step_removed_mono hstep x hx)⟩

/-- When the node found for `nm` is exactly the qualifying Reshape `r`,
the step must take the folding branch (given that it returned at all). -/
lemma reshapeFoldStep_folds {σ : List Node} {rem : List String} {r : Node}
    (hfind : σ.find? (fun m => m.name == r.name) = some r)
    (hop : r.op_type = "Reshape") {t0 : String} {ten : Tensor}
    (hten : r.input_tensors = [(t0, ten)])
    (hin : r.inputs.head? = some t0)
    (hpar : r.parents = [])
    {σ2 : List Node} {rem2 : List String}
    (h : reshapeFoldStep σ rem r.name = some (σ2, rem2)) :
    ∃ oname shape resh,
      r.outputs.head? = some oname ∧
      r.attrIntList "shape" = some shape ∧
      Tensor.reshape ten shape = some resh ∧
      σ2 = r.children.foldl (fun s c => updateNodeByName s c (fun child =>
        { child with parents := child.parents.erase r.name,
                     input_tensors := setTensor child.input_tensors oname resh })) σ ∧
      rem2 = rem ++ [r.name] := by
  unfold reshapeFoldStep at h
  rw [hfind] at h
  simp only at h
  rw [if_neg (by simp [hop])] at h
  rw [hten] at h
  simp only at h
  cases hi : r.inputs with
  | nil =>
    rw [hi] at hin
    cases hin
  | cons i0 irest =>
    rw [hi] at h hin
    simp only [List.head?_cons, Option.some.injEq] at hin
    subst hin
    simp only at h
    rw [if_neg (by simp)] at h
    rw [if_neg (by simp [hpar])] at h
    cases ho : r.outputs with
    | nil =>
      rw [ho] at h
      cases h
    | cons oname orest =>
      rw [ho] at h
      simp only at h
      cases hs : r.attrIntList "shape" with
      | none =>
        rw [hs] at h
        cases h
      | some shape =>
        rw [hs] at h
        simp only at h
        cases hre : ten.reshape shape with
        | none =>
          rw [hre] at h
          cases h
        | some resh =>
          rw [hre] at h
          simp only [Option.some.injEq, Prod.mk.injEq] at h
          exact ⟨oname, shape, resh, rfl, rfl, hre, h.1.symm, h.2.symm⟩

/-- After the folding node's children are all updated, every state entry
named like one of them carries the reshaped tensor under the output edge
name. -/
lemma foldl_update_establish (rn oname : String) (resh : Tensor) :
    ∀ (cs : List String) (σ : List Node), ∀ c ∈ cs,
    ∀ m ∈ cs.foldl (fun s c2 => updateNodeByName s c2 (fun child =>
        { child with parents := child.parents.erase rn,
                     input_tensors := setTensor child.input_tensors oname resh })) σ,
      m.name = c → (oname, resh) ∈ m.input_tensors := by
  have hkeep : ∀ (c : String) (σ : List Node),
      (∀ m ∈ σ, m.name = c → (oname, resh) ∈ m.input_tensors) →
      ∀ (cs : List String),
      ∀ m ∈ cs.foldl (fun s c2 => updateNodeByName s c2 (fun child =>
          { child with parents := child.parents.erase rn,
                       input_tensors := setTensor child.input_tensors oname resh })) σ,
        m.name = c → (oname, resh) ∈ m.input_tensors := by
    intro c σ hσ cs
    induction cs generalizing σ with
    | nil => exact hσ
    | cons c2 rest ih =>
      simp only [List.foldl_cons]
      apply ih
      intro m hm hmn
      obtain ⟨m0, hm0, heq⟩ := mem_updateNodeByName hm
      by_cases h0 : m0.name = c2
      · rw [if_pos h0] at heq
        subst heq
        exact setTensor_mem_self _ _ _
      · rw [if_neg h0] at heq
        subst heq
        exact hσ _ hm0 hmn
  intro cs
  induction cs with
  | nil =>
    intro σ c hc
    cases hc
  | cons c0 rest ih =>
    intro σ c hc
    rcases List.mem_cons.mp hc with hc0 | hcr
    · subst hc0
      simp only [List.foldl_cons]
      apply hkeep c _ ?_ rest
      intro m hm hmn
      obtain ⟨m0, hm0, heq⟩ := mem_updateNodeByName hm
      by_cases h0 : m0.name = c
      · rw [if_pos h0] at heq
        subst heq
        exact setTensor_mem_self _ _ _
      · rw [if_neg h0] at heq
        subst heq
        exact absurd hmn h0
    · simp only [List.foldl_cons]
      exact ih _ c hcr

lemma Tensor.reshape_data {t : Tensor} {d : List Int} {t2 : Tensor}
    (h : t.reshape d = some t2) : t2.data = t.data := by
  simp only [Tensor.reshape] at h
  split at h
  · split at h
    · simp only [Option.some.injEq] at h
      rw [← h]
    · cases h
  · split at h
    · split at h
      · simp only [Option.some.injEq] at h
        rw [← h]
      · cases h
    · cases h

lemma loop_removed_mono :
    ∀ (ns : List String) (σ : List Node) (rem : List String)
      (σf : List Node) (remf : List String),
    reshapeFoldLoop ns σ rem = some (σf, remf) → ∀ x ∈ rem, x ∈ remf := by
  intro ns
  induction ns with
  | nil =>
    intro σ rem σf remf h
    simp only [reshapeFoldLoop, Option.some.injEq, Prod.mk.injEq] at h
    rw [← h.2]
    exact fun x hx => hx
  | cons nm rest ih =>
    intro σ rem σf remf h
    unfold reshapeFoldLoop at h
    split at h
    · cases h
    · rename_i σ2 rem2 hstep
      exact fun x hx => ih σ2 rem2 σf remf h x (step_removed_mono hstep x hx)

/-- C7 (confirmed): when the pass completes, every `Reshape` node `r`
whose only literal tensor is exactly its first declared input and which
has no parents is folded: its literal is reshaped to the node's `shape`
attribute with no data change, the reshaped tensor is attached to every
consuming child under `r`'s original output edge name, and `r` is removed
from the result so that no remaining node lists it as a parent.
Hypotheses: the spec's data-model invariants (unique node names, each
edge produced by at most one node, consistent back-references). -/
theorem reshapeInitTensorFuser_spec (g g2 : Graph) (r : Node) (t0 : String) (ten : Tensor)
    (hcall : ReshapeInitTensorFuser.call g = some g2)
    (hr : r ∈ g.nodes)
    (hop : r.op_type = "Reshape")
    (hten : r.input_tensors = [(t0, ten)])
    (hin : r.inputs.head? = some t0)
    (hpar : r.parents = [])
    (hnames : (g.nodes.map Node.name).Nodup)
    (houts : (g.nodes.flatMap Node.outputs).Nodup)
    (hcons : ∀ m ∈ g.nodes, ∀ cn ∈ m.children, ∀ c ∈ g.nodes, c.name = cn →
      m.name ∈ c.parents) :
    ∃ oname shape resh,
      r.outputs.head? = some oname ∧
      r.attrIntList "shape" = some shape ∧
      Tensor.reshape ten shape = some resh ∧
      resh.data = ten.data ∧
      (∀ n2 ∈ g2.nodes, n2.name ≠ r.name) ∧
      (∀ n2 ∈ g2.nodes, r.name ∉ n2.parents) ∧
      (∀ c ∈ r.children, ∀ n2 ∈ g2.nodes, n2.name = c →
        (oname, resh) ∈ n2.input_tensors) := by
  have hNoChild : ∀ m ∈ g.nodes, r.name ∉ m.children := by
    intro m hm hmem
    have := hcons m hm r.name hmem r hr rfl
    rw [hpar] at this
    cases this
  unfold ReshapeInitTensorFuser.call at hcall
  split at hcall
  · cases hcall
  · rename_i σf remf hloop
    simp only [Option.some.injEq] at hcall
    obtain ⟨l1, l2, hL⟩ := List.append_of_mem hr
    have hnames2 : g.nodes.map Node.name =
        l1.map Node.name ++ r.name :: l2.map Node.name := by
      rw [hL]
      simp
    have hnodup := hnames
    rw [hnames2] at hnodup
    have hr1 : r.name ∉ l1.map Node.name := fun hmem =>
      List.disjoint_of_nodup_append hnodup hmem (List.mem_cons_self _ _)
    have hr2 : r.name ∉ l2.map Node.name :=
      (List.nodup_cons.mp (hnodup.of_append_right)).1
    rw [hnames2, reshapeFoldLoop_append] at hloop
    cases hpre : reshapeFoldLoop (l1.map Node.name) g.nodes [] with
    | none =>
      rw [hpre] at hloop
      cases hloop
    | some st1 =>
      rw [hpre] at hloop
      obtain ⟨σ1, rem1⟩ := st1
      unfold reshapeFoldLoop at hloop
      split at hloop
      · cases hloop
      · rename_i σ2 rem2 hstep
        have hbase : ∀ m ∈ g.nodes, m.name = r.name → m = r := fun m hm hname =>
          List.inj_on_of_nodup_map hnames hm hr hname
        obtain ⟨hsk1, hunt1⟩ := loop_pre hNoChild (l1.map Node.name) g.nodes []
          σ1 rem1 (forall2_skeleton_refl _) hbase hpre
        have hfind : σ1.find? (fun m => m.name == r.name) = some r := by
          cases hf : σ1.find? (fun m => m.name == r.name) with
          | none =>
            exfalso
            have hmm : r.name ∈ σ1.map Node.name := by
              rw [forall2_map_names hsk1]
              exact List.mem_map.mpr ⟨r, hr, rfl⟩
            obtain ⟨m, hmσ, hmn⟩ := List.mem_map.mp hmm
            have := List.find?_eq_none.mp hf m hmσ
            simp [hmn] at this
          | some m2 =>
            have hname2 : m2.name = r.name := by simpa using List.find?_some hf
            have hm2 : m2 ∈ σ1 := List.mem_of_find?_eq_some hf
            rw [hunt1 m2 hm2 hname2]
        obtain ⟨oname, shape, resh, honame, hshape, hresh, hσ2, hrem2⟩ :=
          reshapeFoldStep_folds hfind hop hten hin hpar hstep
        have hsk2 : List.Forall₂ skeletonEq σ2 g.nodes := step_skeleton hstep hsk1
        have honamem : oname ∈ r.outputs := List.mem_of_mem_head? honame
        have hpostne : ∀ nm ∈ l2.map Node.name, nm ≠ r.name := fun nm hnm heq =>
          hr2 (heq ▸ hnm)
        have hrrem : r.name ∈ remf := by
          refine loop_removed_mono _ _ _ _ _ hloop r.name ?_
          rw [hrem2]
          exact List.mem_append_right _ (List.mem_singleton.mpr rfl)
        refine ⟨oname, shape, resh, honame, hshape, hresh, Tensor.reshape_data hresh,
          ?_, ?_, ?_⟩
        · intro n2 hn2
          rw [← hcall] at hn2
          unfold Graph.fromNodes rebuildAdjacency at hn2
          obtain ⟨m, hm, hmeq⟩ := List.mem_map.mp hn2
          have hmf := (List.mem_filter.mp hm).2
          intro hcon
          rw [← hmeq] at hcon
          simp only at hcon
          rw [hcon] at hmf
          simp [hrrem] at hmf
        · intro n2 hn2
          rw [← hcall] at hn2
          unfold Graph.fromNodes rebuildAdjacency at hn2
          obtain ⟨m, hm, hmeq⟩ := List.mem_map.mp hn2
          rw [← hmeq]
          simp only
          intro hcon
          obtain ⟨q, hq, hqn⟩ := List.mem_map.mp hcon
          have hqf := (List.mem_filter.mp (List.mem_of_mem_filter hq)).2
          rw [hqn] at hqf
          simp [hrrem] at hqf
        · intro c hc n2 hn2 hn2n
          have hstart : ∀ m ∈ σ2, m.name = c → (oname, resh) ∈ m.input_tensors := by
            rw [hσ2]
            exact foldl_update_establish r.name oname resh r.children σ1 c hc
          obtain ⟨htens, -⟩ := loop_post houts hr honamem (l2.map Node.name) hpostne
            σ2 rem2 σf remf hsk2 hstart hloop
          rw [← hcall] at hn2
          unfold Graph.fromNodes rebuildAdjacency at hn2
          obtain ⟨m, hm, hmeq⟩ := List.mem_map.mp hn2
          have hmσf : m ∈ σf := List.mem_of_mem_filter hm
          rw [← hmeq] at hn2n ⊢
          simp only at hn2n ⊢
          exact htens m hmσf hn2n

/-- Concrete constant-reshape node: its only literal tensor `t` is its
first declared input. -/
def rshNode : Node :=
  { name := "rsh", op_type := "Reshape", attrs := [("shape", AttrValue.list [3, 2])],
    inputs := ["t"], outputs := ["ro"],
    input_tensors := [("t", ⟨[2, 3], [1, 2, 3, 4, 5, 6]⟩)],
    parents := [], children := ["use"] }

/-- Consumer of the reshaped constant. -/
def useNode : Node :=
  { name := "use", op_type := "Gemm", attrs := [], inputs := ["ro", "y"],
    outputs := ["out"], input_tensors := [], parents := ["rsh"], children := [] }

def gC7 : Graph := ⟨[rshNode, useNode], [("y", [1])], [("out", [1])]⟩

/-- The graph `ReshapeInitTensorFuser` produces from `gC7`. -/
def gC7res : Graph :=
  ⟨[{ name := "use", op_type := "Gemm", attrs := [], inputs := ["ro", "y"],
      outputs := ["out"], input_tensors := [("ro", ⟨[3, 2], [1, 2, 3, 4, 5, 6]⟩)],
      parents := [], children := [] }], [("y", [1])], [("out", [1])]⟩

/-- Witness for C7 on the concrete graph `gC7`. -/
theorem reshapeInitTensorFuser_spec_witness :
    ReshapeInitTensorFuser.call gC7 = some gC7res ∧
    (∃ oname shape resh,
      rshNode.outputs.head? = some oname ∧
      rshNode.attrIntList "shape" = some shape ∧
      Tensor.reshape (⟨[2, 3], [1, 2, 3, 4, 5, 6]⟩ : Tensor) shape = some resh ∧
      resh.data = Tensor.data ⟨[2, 3], [1, 2, 3, 4, 5, 6]⟩ ∧
      (∀ n2 ∈ gC7res.nodes, n2.name ≠ rshNode.name) ∧
      (∀ n2 ∈ gC7res.nodes, rshNode.name ∉ n2.parents) ∧
      (∀ c ∈ rshNode.children, ∀ n2 ∈ gC7res.nodes, n2.name = c →
        (oname, resh) ∈ n2.input_tensors)) :=
  ⟨by decide,
    reshapeInitTensorFuser_spec gC7 gC7res rshNode "t" ⟨[2, 3], [1, 2, 3, 4, 5, 6]⟩
      (by decide) (by decide) (by decide) (by decide) (by decide) (by decide)
      (by decide) (by decide) (by decide)⟩

/-! ## C8: output renaming

The counterexample: when a mapped value collides with a still-pending
mapping key (here `a -> x` while `x -> z` is pending), a consuming input
entry is renamed twice, so after the pass the consumer no longer
references the name the producer's output received.  Under a freshness
proviso on the mapped values the pass is exactly a one-shot substitution;
the proof runs the loops against an explicit "already-applied output
names" accumulator `P`. -/

def rP : Node :=
  { name := "P", op_type := "Op", attrs := [], inputs := [], outputs := ["a"],
    input_tensors := [], parents := [], children := ["C"] }

def rQ : Node :=
  { name := "Q", op_type := "Op", attrs := [], inputs := [], outputs := ["x"],
    input_tensors := [], parents := [], children := ["C"] }

def rC : Node :=
  { name := "C", op_type := "Op", attrs := [], inputs := ["a", "x"],
    outputs := ["c"], input_tensors := [], parents := ["P", "Q"], children := [] }

def gRen : Graph := ⟨[rP, rQ, rC], [], [("c", [1])]⟩

/-- C8 counterexample: with mapping `{a -> x, x -> z}` on producers
`P : a`, `Q : x` and consumer `C : [a, x]`, the pass leaves `P` producing
`x` while both of `C`'s entries end as `z` -- the entry that consumed
`P`'s renamed output does not reference the mapped name `x` -- so the
claim's final-state guarantee fails without a freshness proviso. -/
theorem outputRenamer_stale_rename_counterexample :
    (OutputRenamer.call gRen [("a", "x"), ("x", "z")]).nodes.map
        (fun n => (n.name, n.outputs, n.inputs)) =
      [("P", ["x"], []), ("Q", ["z"], []), ("C", ["c"], ["z", "z"])] ∧
    (∀ n ∈ (OutputRenamer.call gRen [("a", "x"), ("x", "z")]).nodes,
      n.name = "C" → "x" ∉ n.inputs) := by
  refine ⟨by decide, by decide⟩

/-- Apply the mapping to one name (identity off the keys). -/
def substM (M : List (String × String)) (x : String) : String :=
  match M.find? (fun kv => kv.1 == x) with
  | some kv => kv.2
  | none => x

/-- All edge names produced by some node of the list. -/
def prodOf (L : List Node) : List String := L.flatMap Node.outputs

/-- The node-list state of `OutputRenamer` after exactly the output
names in `P` have been applied: those output occurrences are substituted,
and input entries equal to an already-applied produced name are
substituted. -/
def renState (L : List Node) (M : List (String × String)) (P : List String) :
    List Node :=
  L.map (fun n =>
    { n with
      outputs := n.outputs.map (fun o => if o ∈ P then substM M o else o),
      inputs := n.inputs.map (fun x => if x ∈ P then substM M x else x) })

/-- The mapping state after the output names in `P` have been applied. -/
def renMap (M : List (String × String)) (P : List String) :
    List (String × String) :=
  M.filter (fun kv => decide (kv.1 ∉ P))

lemma renState_nil (L : List Node) (M : List (String × String)) :
    renState L M [] = L := by
  unfold renState
  have : ∀ n : Node, ({ n with
      outputs := n.outputs.map (fun o => if o ∈ ([] : List String) then substM M o else o),
      inputs := n.inputs.map (fun x => if x ∈ ([] : List String) then substM M x else x) }) = n := by
    intro n
    simp
  simp only [this, List.map_id']

lemma renMap_nil (M : List (String × String)) : renMap M [] = M := by
  unfold renMap
  simp

lemma substM_of_not_key {M : List (String × String)} {x : String}
    (h : M.find? (fun kv => kv.1 == x) = none) : substM M x = x := by
  unfold substM
  rw [h]

lemma find?_self_of_nodup_keys {M : List (String × String)}
    (hk : (M.map Prod.fst).Nodup) {kv : String × String} (hmem : kv ∈ M) :
    M.find? (fun e => e.1 == kv.1) = some kv := by
  induction M with
  | nil => cases hmem
  | cons hd tl ih =>
    rcases List.mem_cons.mp hmem with h1 | h2
    · subst h1
      exact List.find?_cons_of_pos _ (by simp)
    · have hne : hd.1 ≠ kv.1 := by
        intro hcon
        have : kv.1 ∈ tl.map Prod.fst := List.mem_map.mpr ⟨kv, h2, rfl⟩
        rw [← hcon] at this
        exact (List.nodup_cons.mp (by simpa using hk)).1 this
      rw [List.find?_cons_of_neg _ (by simpa using hne)]
      exact ih (by simpa using (List.nodup_cons.mp (by simpa using hk)).2) h2

lemma eraseP_eq_filter_of_nodup_keys {M : List (String × String)}
    (hk : (M.map Prod.fst).Nodup) (k : String) :
    M.eraseP (fun kv => kv.1 == k) = M.filter (fun kv => !(kv.1 == k)) := by
  induction M with
  | nil => rfl
  | cons hd tl ih =>
    simp only [List.map_cons, List.nodup_cons] at hk
    by_cases h : hd.1 = k
    · rw [List.eraseP_cons_of_pos (by simpa using h), List.filter_cons_of_neg (by simpa using h)]
      have : ∀ kv ∈ tl, (!(kv.1 == k)) = true := by
        intro kv hkv
        have : kv.1 ≠ k := by
          intro hcon
          exact hk.1 (List.mem_map.mpr ⟨kv, hkv, by rw [hcon, h]⟩)
        simpa using this
      rw [List.filter_eq_self.mpr this]
    · rw [List.eraseP_cons_of_neg (by simpa using h), List.filter_cons_of_pos (by simpa using h)]
      rw [ih hk.2]

lemma find?_filter_of_mem {M : List (String × String)}
    (hk : (M.map Prod.fst).Nodup) {kv : String × String} (hmem : kv ∈ M)
    (q : String × String → Bool) (hq : q kv = true) :
    (M.filter q).find? (fun e => e.1 == kv.1) = some kv := by
  induction M with
  | nil => cases hmem
  | cons hd tl ih =>
    simp only [List.map_cons, List.nodup_cons] at hk
    rcases List.mem_cons.mp hmem with h1 | h2
    · subst h1
      rw [List.filter_cons_of_pos hq]
      exact List.find?_cons_of_pos _ (by simp)
    · have hne : hd.1 ≠ kv.1 := by
        intro hcon
        exact hk.1 (List.mem_map.mpr ⟨kv, h2, hcon.symm⟩)
      by_cases hqh : q hd = true
      · rw [List.filter_cons_of_pos hqh, List.find?_cons_of_neg _ (by simpa using hne)]
        exact ih hk.2 h2
      · rw [List.filter_cons_of_neg (by simpa using hqh)]
        exact ih hk.2 h2

lemma find?_filter_of_none {M : List (String × String)} {k : String}
    (h : M.find? (fun e => e.1 == k) = none) (q : String × String → Bool) :
    (M.filter q).find? (fun e => e.1 == k) = none := by
  rw [List.find?_eq_none] at h ⊢
  intro kv hkv
  exact h kv (List.mem_of_mem_filter hkv)

lemma find?_name_of_nodup {L : List Node} (hn : (L.map Node.name).Nodup)
    {n0 : Node} (hmem : n0 ∈ L) :
    L.find? (fun m => m.name == n0.name) = some n0 := by
  induction L with
  | nil => cases hmem
  | cons hd tl ih =>
    simp only [List.map_cons, List.nodup_cons] at hn
    rcases List.mem_cons.mp hmem with h1 | h2
    · subst h1
      exact List.find?_cons_of_pos _ (by simp)
    · have hne : hd.name ≠ n0.name := by
        intro hcon
        exact hn.1 (List.mem_map.mpr ⟨n0, h2, hcon.symm⟩)
      rw [List.find?_cons_of_neg _ (by simpa using hne)]
      exact ih hn.2 h2

lemma updateNodeByName_map (L : List Node) (φ : Node → Node)
    (hφ : ∀ n, (φ n).name = n.name) (nm : String) (f : Node → Node) :
    updateNodeByName (L.map φ) nm f =
      L.map (fun n => if n.name = nm then f (φ n) else φ n) := by
  unfold updateNodeByName
  rw [List.map_map]
  refine List.map_congr_left ?_
  intro n hn
  simp only [Function.comp_apply, hφ]

lemma renameChildren_eq {o v : String} (hvo : v ≠ o) :
    ∀ (cs : List String) (σ : List Node),
    renameChildren σ cs o v = σ.map (fun n =>
      if n.name ∈ cs then
        { n with inputs := n.inputs.map (fun x => if x = o then v else x) }
      else n) := by
  intro cs
  induction cs with
  | nil =>
    intro σ
    unfold renameChildren
    simp
  | cons c rest ih =>
    intro σ
    show renameChildren (updateNodeByName σ c _) rest o v = _
    rw [ih]
    unfold updateNodeByName
    rw [List.map_map]
    refine List.map_congr_left ?_
    intro n hn
    simp only [Function.comp_apply]
    by_cases hc : n.name = c
    · rw [if_pos hc]
      by_cases hr : n.name ∈ rest
      · rw [if_pos (by simpa using hr), if_pos (List.mem_cons.mpr (Or.inl hc))]
        simp only [Node.mk.injEq, List.map_map, and_true, true_and]
        refine List.map_congr_left ?_
        intro x hx
        simp only [Function.comp_apply]
        by_cases hxo : x = o
        · rw [if_pos hxo, if_neg hvo]
        · rw [if_neg hxo, if_neg hxo]
      · rw [if_neg (by simpa using hr), if_pos (List.mem_cons.mpr (Or.inl hc))]
    · rw [if_neg hc]
      by_cases hr : n.name ∈ rest
      · rw [if_pos hr, if_pos (List.mem_cons.mpr (Or.inr hr))]
      · rw [if_neg hr, if_neg (by simp [hc, hr])]

lemma renState_congr (L : List Node) (M : List (String × String))
    {P1 P2 : List String}
    (h : ∀ y : String, (y ∈ P1 ↔ y ∈ P2) ∨ substM M y = y) :
    renState L M P1 = renState L M P2 := by
  unfold renState
  refine List.map_congr_left ?_
  intro n hn
  have harg : ∀ y : String, (if y ∈ P1 then substM M y else y) =
      (if y ∈ P2 then substM M y else y) := by
    intro y
    rcases h y with hiff | hid
    · by_cases h1 : y ∈ P1
      · rw [if_pos h1, if_pos (hiff.mp h1)]
      · rw [if_neg h1, if_neg (fun h2 => h1 (hiff.mpr h2))]
    · by_cases h1 : y ∈ P1 <;> by_cases h2 : y ∈ P2 <;>
        simp [h1, h2, hid]
  simp only [Node.mk.injEq, true_and, and_true]
  constructor
  · exact List.map_congr_left (fun x _ => harg x)
  · exact List.map_congr_left (fun x _ => harg x)

lemma renMap_congr (M : List (String × String)) {P1 P2 : List String}
    (h : ∀ kv ∈ M, kv.1 ∈ P1 ↔ kv.1 ∈ P2) :
    renMap M P1 = renMap M P2 := by
  unfold renMap
  refine List.filter_congr ?_
  intro kv hkv
  simp [h kv hkv]

lemma nodup_get?_ne {α : Type} {l : List α} (hl : l.Nodup) {i j : Nat} {a b : α}
    (hi : l.get? i = some a) (hj : l.get? j = some b) (hij : i ≠ j) : a ≠ b := by
  intro hcon
  subst hcon
  have hlen : i < l.length := by
    by_contra hc
    rw [List.get?_eq_none.mpr (by omega)] at hi
    cases hi
  exact hij (List.get?_inj hlen hl (hi.trans hj.symm))

lemma state_step_eq (L : List Node) (M : List (String × String)) (n0 : Node)
    (P : List String) (i : Nat) (o_i v : String)
    (hnames : (L.map Node.name).Nodup)
    (hn0 : n0 ∈ L)
    (hoi : n0.outputs.get? i = some o_i)
    (hoiP : o_i ∉ P)
    (hoiprod : o_i ∈ prodOf L)
    (hsub : substM M o_i = v)
    (hvfresh : v ∉ prodOf L)
    (hsubfresh : ∀ x : String, substM M x ∉ prodOf L ∨ substM M x = x)
    (houtdis : ∀ n ∈ L, n ≠ n0 → o_i ∉ n.outputs)
    (hn0nodup : n0.outputs.Nodup)
    (hcons2 : ∀ b ∈ L, o_i ∈ b.inputs → b.name ∈ n0.children) :
    renameChildren
      (updateNodeByName (renState L M P) n0.name
        (fun x => { x with outputs := x.outputs.set i v }))
      n0.children o_i v
    = renState L M (P ++ [o_i]) := by
  have hvo : v ≠ o_i := fun hcon => hvfresh (hcon ▸ hoiprod)
  have harg : ∀ x : String, x ≠ o_i →
      (if x ∈ P then substM M x else x) = (if x ∈ P ++ [o_i] then substM M x else x) := by
    intro x hx
    by_cases h1 : x ∈ P
    · rw [if_pos h1, if_pos (List.mem_append_left _ h1)]
    · rw [if_neg h1, if_neg (by simp [h1, hx])]
  have hxi : ∀ x : String, (if x ∈ P then substM M x else x) = o_i → x = o_i := by
    intro x hx
    by_cases h1 : x ∈ P
    · rw [if_pos h1] at hx
      rcases hsubfresh x with hf | hf
      · exact absurd (hx ▸ hoiprod) hf
      · rw [hf] at hx
        exact hx
    · rw [if_neg h1] at hx
      exact hx
  rw [renameChildren_eq hvo]
  unfold renState
  rw [updateNodeByName_map L (fun n => { n with outputs := n.outputs.map (fun o => if o ∈ P then substM M o else o), inputs := n.inputs.map (fun x => if x ∈ P then substM M x else x) }) (fun n => rfl), List.map_map]
  refine List.map_congr_left ?_
  intro n hn
  simp only [Function.comp_apply]
  have hinputs_ch : ∀ (inp : List String),
      (inp.map (fun x => if x ∈ P then substM M x else x)).map (fun x => if x = o_i then v else x) =
      inp.map (fun x => if x ∈ P ++ [o_i] then substM M x else x) := by
    intro inp
    rw [List.map_map]
    refine List.map_congr_left ?_
    intro x hx
    simp only [Function.comp_apply]
    by_cases hxo : x = o_i
    · subst hxo
      rw [if_neg hoiP, if_pos rfl, if_pos (List.mem_append_right _ (List.mem_singleton.mpr rfl)), hsub]
    · rw [if_neg (fun hcon => hxo (hxi x hcon)), harg x hxo]
  have hinputs_nch : n.name ∉ n0.children →
      n.inputs.map (fun x => if x ∈ P then substM M x else x) =
      n.inputs.map (fun x => if x ∈ P ++ [o_i] then substM M x else x) := by
    intro hch
    refine List.map_congr_left ?_
    intro x hx
    by_cases hxo : x = o_i
    · subst hxo
      exact absurd (hcons2 n hn hx) hch
    · exact harg x hxo
  by_cases hname : n.name = n0.name
  · have hnn0 : n = n0 := List.inj_on_of_nodup_map hnames hn hn0 hname
    subst hnn0
    rw [if_pos rfl]
    have hout : (n.outputs.map (fun o => if o ∈ P then substM M o else o)).set i v =
        n.outputs.map (fun o => if o ∈ P ++ [o_i] then substM M o else o) := by
      refine List.ext_get? ?_
      intro j
      by_cases hij : i = j
      · subst hij
        have hi2 : i < n.outputs.length := by
          by_contra hc
          rw [List.get?_eq_none.mpr (by omega)] at hoi
          cases hoi
        rw [List.get?_set_eq_of_lt _ (by simpa using hi2), List.get?_map, hoi]
        simp only [Option.map_some', Option.some.injEq]
        rw [if_pos (List.mem_append_right _ (List.mem_singleton.mpr rfl)), hsub]
      · rw [List.get?_set_ne _ _ (by omega), List.get?_map, List.get?_map]
        cases hj : n.outputs.get? j with
        | none => rfl
        | some oj =>
          simp only [Option.map_some', Option.some.injEq]
          exact harg oj (nodup_get?_ne hn0nodup hj hoi (by omega))
    by_cases hch : n.name ∈ n.children
    · rw [if_pos hch]
      simp only [Node.mk.injEq]
      exact ⟨trivial, trivial, trivial, hinputs_ch n.inputs, hout, trivial, trivial, trivial⟩
    · rw [if_neg hch]
      simp only [Node.mk.injEq]
      exact ⟨trivial, trivial, trivial, hinputs_nch hch, hout, trivial, trivial, trivial⟩
  · rw [if_neg hname]
    have hout2 : n.outputs.map (fun o => if o ∈ P then substM M o else o) =
        n.outputs.map (fun o => if o ∈ P ++ [o_i] then substM M o else o) := by
      refine List.map_congr_left ?_
      intro o ho
      have hne : o ≠ o_i := by
        intro hcon
        refine houtdis n hn ?_ (hcon ▸ ho)
        intro hcon2
        exact hname (hcon2 ▸ rfl)
      exact harg o hne
    by_cases hch : n.name ∈ n0.children
    · rw [if_pos hch]
      simp only [Node.mk.injEq]
      exact ⟨trivial, trivial, trivial, hinputs_ch n.inputs, hout2, trivial, trivial, trivial⟩
    · rw [if_neg hch]
      simp only [Node.mk.injEq]
      exact ⟨trivial, trivial, trivial, hinputs_nch hch, hout2, trivial, trivial, trivial⟩

lemma renameOutputsLoop_spec
    (M : List (String × String)) (L L1 L2 : List Node) (n0 : Node)
    (hL : L = L1 ++ n0 :: L2)
    (hnames : (L.map Node.name).Nodup)
    (houts : (prodOf L).Nodup)
    (hkeys : (M.map Prod.fst).Nodup)
    (hfresh : ∀ kv ∈ M, kv.2 ∉ M.map Prod.fst ∧ kv.2 ∉ prodOf L)
    (hcons : ∀ a ∈ L, ∀ b ∈ L, ∀ o ∈ a.outputs, o ∈ b.inputs → b.name ∈ a.children) :
    ∀ (fuel i : Nat), i + fuel = n0.outputs.length →
    renameOutputsLoop n0.name i fuel
        (renState L M (prodOf L1 ++ n0.outputs.take i))
        (renMap M (prodOf L1 ++ n0.outputs.take i)) =
      (renState L M (prodOf L1 ++ n0.outputs),
       renMap M (prodOf L1 ++ n0.outputs)) := by
  have hn0L : n0 ∈ L := by
    rw [hL]
    exact List.mem_append_right _ (List.mem_cons_self _ _)
  have hprodL : prodOf L = prodOf L1 ++ (n0.outputs ++ prodOf L2) := by
    rw [hL]
    simp [prodOf]
  have houts2 := houts
  rw [hprodL] at houts2
  have hnodupBC : (n0.outputs ++ prodOf L2).Nodup := (List.nodup_append.mp houts2).2.1
  have hn0nodup : n0.outputs.Nodup := (List.nodup_append.mp hnodupBC).1
  have hdisjA : ∀ o ∈ n0.outputs, o ∉ prodOf L1 := by
    intro o ho hcon
    exact (List.nodup_append.mp houts2).2.2 hcon (List.mem_append_left _ ho)
  have hsubfresh : ∀ x : String, substM M x ∉ prodOf L ∨ substM M x = x := by
    intro x
    unfold substM
    cases hf : M.find? (fun kv => kv.1 == x) with
    | none => exact Or.inr rfl
    | some kv => exact Or.inl (hfresh kv (List.mem_of_find?_eq_some hf)).2
  have hφname : ∀ (Q : List String),
      (∀ n : Node, (({ n with
        outputs := n.outputs.map (fun o => if o ∈ Q then substM M o else o),
        inputs := n.inputs.map (fun x => if x ∈ Q then substM M x else x) }) : Node).name = n.name) :=
    fun Q n => rfl
  intro fuel
  induction fuel with
  | zero =>
    intro i hi
    have htake : n0.outputs.take i = n0.outputs := List.take_of_length_le (by omega)
    rw [htake]
    rfl
  | succ fuel ih =>
    intro i hi
    obtain ⟨o_i, hoi⟩ : ∃ o, n0.outputs.get? i = some o := by
      cases h : n0.outputs.get? i with
      | none =>
        rw [List.get?_eq_none] at h
        omega
      | some o => exact ⟨o, rfl⟩
    have hoimem : o_i ∈ n0.outputs := List.get?_mem hoi
    have hoiprod : o_i ∈ prodOf L := by
      rw [hprodL]
      exact List.mem_append_right _ (List.mem_append_left _ hoimem)
    have htake1 : n0.outputs.take (i + 1) = n0.outputs.take i ++ [o_i] := by
      rw [List.take_succ, ← List.get?_eq_getElem?, hoi]
      rfl
    have hoitake : o_i ∉ n0.outputs.take i := by
      have hsub : (n0.outputs.take (i + 1)).Nodup :=
        hn0nodup.sublist (List.take_sublist _ _)
      rw [htake1] at hsub
      intro hcon
      exact (List.nodup_append.mp hsub).2.2 hcon (List.mem_singleton.mpr rfl)
    have hoiP : o_i ∉ prodOf L1 ++ n0.outputs.take i := by
      intro hcon
      rcases List.mem_append.mp hcon with h1 | h2
      · exact hdisjA o_i hoimem h1
      · exact hoitake h2
    have hfind : (renState L M (prodOf L1 ++ n0.outputs.take i)).find?
        (fun x => x.name == n0.name) = some ({ n0 with
          outputs := n0.outputs.map (fun o => if o ∈ prodOf L1 ++ n0.outputs.take i then substM M o else o),
          inputs := n0.inputs.map (fun x => if x ∈ prodOf L1 ++ n0.outputs.take i then substM M x else x) }) := by
      unfold renState
      rw [find?_map_name _ _ (hφname _), find?_name_of_nodup hnames hn0L]
      rfl
    unfold renameOutputsLoop
    rw [hfind]
    simp only
    have hget : (n0.outputs.map (fun o => if o ∈ prodOf L1 ++ n0.outputs.take i then substM M o else o)).get? i = some o_i := by
      rw [List.get?_map, hoi]
      simp only [Option.map_some', Option.some.injEq]
      rw [if_neg hoiP]
    rw [hget]
    simp only
    cases hkey : M.find? (fun e => e.1 == o_i) with
    | none =>
      have hmfind : (renMap M (prodOf L1 ++ n0.outputs.take i)).find?
          (fun e => e.1 == o_i) = none := find?_filter_of_none hkey _
      rw [hmfind]
      have hstateeq : renState L M (prodOf L1 ++ n0.outputs.take i) =
          renState L M (prodOf L1 ++ n0.outputs.take (i + 1)) := by
        refine renState_congr L M ?_
        intro y
        by_cases hy : y = o_i
        · subst hy
          exact Or.inr (substM_of_not_key hkey)
        · refine Or.inl ?_
          rw [htake1, ← List.append_assoc]
          simp [hy]
      have hmapeq : renMap M (prodOf L1 ++ n0.outputs.take i) =
          renMap M (prodOf L1 ++ n0.outputs.take (i + 1)) := by
        refine renMap_congr M ?_
        intro kv hkv
        have hne : kv.1 ≠ o_i := by
          intro hcon
          rw [List.find?_eq_none] at hkey
          exact absurd (by simpa using hcon) (hkey kv hkv)
        rw [htake1, ← List.append_assoc]
        simp [hne]
      rw [hstateeq, hmapeq]
      exact ih (i + 1) (by omega)
    | some kv =>
      have hkv1 : kv.1 = o_i := by simpa using List.find?_some hkey
      have hkvM : kv ∈ M := List.mem_of_find?_eq_some hkey
      have hmfind : (renMap M (prodOf L1 ++ n0.outputs.take i)).find?
          (fun e => e.1 == o_i) = some kv := by
        rw [← hkv1]
        refine find?_filter_of_mem hkeys hkvM _ ?_
        simp only [decide_eq_true_eq]
        rw [hkv1]
        exact hoiP
      rw [hmfind]
      simp only
      have hvfresh : kv.2 ∉ prodOf L := (hfresh kv hkvM).2
      have hsubv : substM M o_i = kv.2 := by
        unfold substM
        rw [hkey]
      have hstep := state_step_eq L M n0 (prodOf L1 ++ n0.outputs.take i) i o_i kv.2
        hnames hn0L hoi hoiP hoiprod hsubv hvfresh hsubfresh
        (fun n hn hne => by
          intro hcon
          exact outputs_disjoint houts hn hn0L hne hcon hoimem)
        hn0nodup
        (fun b hb hbin => hcons n0 hn0L b hb o_i hoimem hbin)
      rw [hstep]
      have herase : (renMap M (prodOf L1 ++ n0.outputs.take i)).eraseP
          (fun e => e.1 == o_i) =
          renMap M (prodOf L1 ++ n0.outputs.take (i + 1)) := by
        have hknodup : ((renMap M (prodOf L1 ++ n0.outputs.take i)).map Prod.fst).Nodup :=
          ((List.filter_sublist _).map Prod.fst).nodup hkeys
        rw [eraseP_eq_filter_of_nodup_keys hknodup]
        unfold renMap
        rw [List.filter_filter]
        refine List.filter_congr ?_
        intro e he
        rw [htake1, ← List.append_assoc]
        by_cases h1 : e.1 ∈ prodOf L1 ++ n0.outputs.take i
        · rcases List.mem_append.mp h1 with h3 | h3 <;> simp [h3]
        · have h1a : e.1 ∉ prodOf L1 := fun hc => h1 (List.mem_append_left _ hc)
          have h1b : e.1 ∉ n0.outputs.take i := fun hc => h1 (List.mem_append_right _ hc)
          by_cases h2 : e.1 = o_i
          · simp [h1a, h1b, h2]
          · simp [h1a, h1b, h2]
      rw [herase]
      have hPsub : renState L M ((prodOf L1 ++ n0.outputs.take i) ++ [o_i]) =
          renState L M (prodOf L1 ++ n0.outputs.take (i + 1)) := by
        rw [htake1, ← List.append_assoc]
      rw [hPsub]
      by_cases hemp : (renMap M (prodOf L1 ++ n0.outputs.take (i + 1))).isEmpty
      · rw [if_pos hemp]
        have hallkeys : ∀ e ∈ M, e.1 ∈ prodOf L1 ++ n0.outputs.take (i + 1) := by
          intro e he
          have := List.isEmpty_iff.mp hemp
          unfold renMap at this
          have h2 := List.filter_eq_nil.mp this e he
          simp only [decide_eq_true_eq] at h2
          exact not_not.mp h2
        have hstateF : renState L M (prodOf L1 ++ n0.outputs.take (i + 1)) =
            renState L M (prodOf L1 ++ n0.outputs) := by
          refine renState_congr L M ?_
          intro y
          by_cases hy : ∃ e ∈ M, e.1 = y
          · obtain ⟨e, he, hey⟩ := hy
            refine Or.inl ?_
            have h1 : y ∈ prodOf L1 ++ n0.outputs.take (i + 1) := hey ▸ hallkeys e he
            constructor
            · intro h2
              rcases List.mem_append.mp h2 with h3 | h3
              · exact List.mem_append_left _ h3
              · exact List.mem_append_right _ (List.mem_of_mem_take h3)
            · intro _
              exact h1
          · refine Or.inr ?_
            push_neg at hy
            refine substM_of_not_key ?_
            rw [List.find?_eq_none]
            intro e he
            simpa using hy e he
        have hmapF : renMap M (prodOf L1 ++ n0.outputs) = [] := by
          unfold renMap
          refine List.filter_eq_nil.mpr ?_
          intro e he
          have h1 := hallkeys e he
          simp only [decide_eq_true_eq, Decidable.not_not]
          rcases List.mem_append.mp h1 with h2 | h2
          · exact List.mem_append_left _ h2
          · exact List.mem_append_right _ (List.mem_of_mem_take h2)
        rw [hstateF, hmapF]
        have hmapE : renMap M (prodOf L1 ++ n0.outputs.take (i + 1)) = [] :=
          List.isEmpty_iff.mp hemp
        rw [hmapE]
      · rw [if_neg hemp]
        exact ih (i + 1) (by omega)

lemma renamePass_spec (M : List (String × String)) (L : List Node)
    (hnames : (L.map Node.name).Nodup)
    (houts : (prodOf L).Nodup)
    (hkeys : (M.map Prod.fst).Nodup)
    (hfresh : ∀ kv ∈ M, kv.2 ∉ M.map Prod.fst ∧ kv.2 ∉ prodOf L)
    (hcons : ∀ a ∈ L, ∀ b ∈ L, ∀ o ∈ a.outputs, o ∈ b.inputs → b.name ∈ a.children) :
    ∀ (Lsuf L1 : List Node), L = L1 ++ Lsuf →
    renamePass (Lsuf.map Node.name) (renState L M (prodOf L1)) (renMap M (prodOf L1)) =
      (renState L M (prodOf L), renMap M (prodOf L)) := by
  intro Lsuf
  induction Lsuf with
  | nil =>
    intro L1 hsplit
    rw [List.append_nil] at hsplit
    subst hsplit
    rfl
  | cons n0 rest ih =>
    intro L1 hsplit
    show (match (renState L M (prodOf L1)).find? (fun x => x.name == n0.name) with
      | none => renamePass (rest.map Node.name) (renState L M (prodOf L1)) (renMap M (prodOf L1))
      | some node =>
        let p := renameOutputsLoop n0.name 0 node.outputs.length
          (renState L M (prodOf L1)) (renMap M (prodOf L1))
        renamePass (rest.map Node.name) p.1 p.2) = _
    have hn0L : n0 ∈ L := by
      rw [hsplit]
      exact List.mem_append_right _ (List.mem_cons_self _ _)
    have hfind : (renState L M (prodOf L1)).find? (fun x => x.name == n0.name) =
        some ({ n0 with
          outputs := n0.outputs.map (fun o => if o ∈ prodOf L1 then substM M o else o),
          inputs := n0.inputs.map (fun x => if x ∈ prodOf L1 then substM M x else x) }) := by
      unfold renState
      rw [find?_map_name L (fun n => { n with outputs := n.outputs.map (fun o => if o ∈ prodOf L1 then substM M o else o), inputs := n.inputs.map (fun x => if x ∈ prodOf L1 then substM M x else x) }) (fun n => rfl), find?_name_of_nodup hnames hn0L]
      rfl
    rw [hfind]
    simp only [List.length_map]
    have hinner := renameOutputsLoop_spec M L L1 rest n0 hsplit hnames houts hkeys
      hfresh hcons n0.outputs.length 0 (by omega)
    rw [List.take_zero, List.append_nil] at hinner
    rw [hinner]
    have hprodstep : prodOf L1 ++ n0.outputs = prodOf (L1 ++ [n0]) := by
      simp [prodOf]
    rw [hprodstep]
    exact ih (L1 ++ [n0]) (by rw [hsplit, List.append_assoc]; rfl)

/-- C8 (corrected): provided every mapped value is fresh (no value is a
mapping key or an existing produced edge name), `OutputRenamer.__call__`
renames every node output that is a key of the mapping, rewrites every
consuming child's matching input entries to the new name, consumes each
key at its first (unique) application -- the keys left in the consumed
copy of the mapping are exactly those matching no node output, each such
key being a harmless no-op -- and never raises.  Stated over the run that
also returns the final state of the consumed mapping copy. -/
theorem outputRenamer_spec (g : Graph) (M : List (String × String))
    (hnames : (g.nodes.map Node.name).Nodup)
    (houts : (prodOf g.nodes).Nodup)
    (hkeys : (M.map Prod.fst).Nodup)
    (hfresh : ∀ kv ∈ M, kv.2 ∉ M.map Prod.fst ∧ kv.2 ∉ prodOf g.nodes)
    (hcons : ∀ a ∈ g.nodes, ∀ b ∈ g.nodes, ∀ o ∈ a.outputs, o ∈ b.inputs →
      b.name ∈ a.children) :
    OutputRenamer.run g M =
      ({ g with nodes := g.nodes.map (fun n =>
          { n with
            outputs := n.outputs.map (substM M),
            inputs := n.inputs.map (fun x =>
              if x ∈ prodOf g.nodes then substM M x else x) }) },
       M.filter (fun kv => decide (kv.1 ∉ prodOf g.nodes))) := by
  have h0 := renamePass_spec M g.nodes hnames houts hkeys hfresh hcons g.nodes [] rfl
  have hp0 : prodOf ([] : List Node) = [] := rfl
  rw [hp0, renState_nil, renMap_nil] at h0
  unfold OutputRenamer.run
  rw [h0]
  simp only [Prod.mk.injEq]
  constructor
  · simp only [Graph.mk.injEq, and_true]
    unfold renState
    refine List.map_congr_left ?_
    intro n hn
    simp only [Node.mk.injEq]
    refine ⟨trivial, trivial, trivial, trivial, ?_, trivial, trivial, trivial⟩
    refine List.map_congr_left ?_
    intro o ho
    rw [if_pos ?_]
    unfold prodOf
    exact List.mem_flatMap.mpr ⟨n, hn, ho⟩
  · rfl

def w8A : Node :=
  { name := "A", op_type := "Op", attrs := [], inputs := [], outputs := ["a"],
    input_tensors := [], parents := [], children := ["B"] }

def w8B : Node :=
  { name := "B", op_type := "Op", attrs := [], inputs := ["a", "k"],
    outputs := ["b"], input_tensors := [], parents := ["A"], children := [] }

def gW8 : Graph := ⟨[w8A, w8B], [("k", [1])], [("b", [1])]⟩

/-- Witness for C8: renaming `a -> newA` with an extra matchless key
`zz -> w`; the output and the consuming input are renamed, `k` (a graph
input) is untouched, and exactly the matchless key survives in the
consumed mapping copy. -/
theorem outputRenamer_spec_witness :
    ((gW8.nodes.map Node.name).Nodup ∧ (prodOf gW8.nodes).Nodup ∧
      (([("a", "newA"), ("zz", "w")].map Prod.fst).Nodup) ∧
      (∀ kv ∈ [("a", "newA"), ("zz", "w")],
        kv.2 ∉ [("a", "newA"), ("zz", "w")].map Prod.fst ∧ kv.2 ∉ prodOf gW8.nodes) ∧
      (∀ a ∈ gW8.nodes, ∀ b ∈ gW8.nodes, ∀ o ∈ a.outputs, o ∈ b.inputs →
        b.name ∈ a.children)) ∧
    OutputRenamer.run gW8 [("a", "newA"), ("zz", "w")] =
      (⟨[{ w8A with outputs := ["newA"] }, { w8B with inputs := ["newA", "k"] }],
        gW8.inputs, gW8.outputs⟩, [("zz", "w")]) :=
  ⟨⟨by decide, by decide, by decide, by decide, by decide⟩,
    (outputRenamer_spec gW8 [("a", "newA"), ("zz", "w")] (by decide) (by decide)
      (by decide) (by decide) (by decide)).trans (by decide)⟩
